import Mathlib

/-!
Verification development for the stubzen signature-extraction and
stub-generation engine.  The Lean definitions below are a shallow embedding
of the Python sources under `src/stubzen`:

* `Ty` models the runtime type-annotation values the engine manipulates
  (concrete classes, string annotations, `typing.ForwardRef` objects and
  parameterized generics).  Machine-level details that the engine never
  inspects (modules of generic aliases, float default values) are omitted.
* `RState` models `TypeResolver`'s four tracking sets
  (`signature_extraction/type_resolver.py`); Python sets are modelled as
  duplicate-free lists with membership-insert.
* `formatType` / `trackType` embed `TypeResolver.format_type` /
  `TypeResolver.track_type`.
* Later sections embed the extractor's type-hint precedence merge, the
  method signature creator, the import generator, and the
  validation/persistence step of stub generation.

The configuration's `exclude_modules` list is passed explicitly as
`cfg : List String` (the code reads it from a singleton `StubzenConfig`).
-/

/-- Model of a Python type-annotation value as seen by the resolver. -/
inductive Ty where
  | noneT : Ty                                          -- None / NoneType
  | anyT : Ty                                           -- typing.Any
  | strAnn : String → Ty                                -- a plain string annotation
  | fwdRef : String → Ty                                -- typing.ForwardRef(arg)
  | cls : String → String → Ty                          -- concrete class: module, name
  | listT : List Ty → Ty                                -- List[...] (origin list)
  | dictT : List Ty → Ty                                -- Dict[...] (origin dict)
  | typeT : List Ty → Ty                                -- Type[...] (origin type)
  | unionT : List Ty → Ty                               -- Union[...] (origin Union)
  | genericT : String → String → List Ty → Ty           -- other generic: origin module, origin name, args

mutual
/-- Boolean equality on `Ty` (towards a `DecidableEq` instance). -/
def tyBeq : Ty → Ty → Bool
  | Ty.noneT, Ty.noneT => true
  | Ty.anyT, Ty.anyT => true
  | Ty.strAnn a, Ty.strAnn b => a == b
  | Ty.fwdRef a, Ty.fwdRef b => a == b
  | Ty.cls m n, Ty.cls m2 n2 => m == m2 && n == n2
  | Ty.listT l, Ty.listT l2 => tyBeqList l l2
  | Ty.dictT l, Ty.dictT l2 => tyBeqList l l2
  | Ty.typeT l, Ty.typeT l2 => tyBeqList l l2
  | Ty.unionT l, Ty.unionT l2 => tyBeqList l l2
  | Ty.genericT m n l, Ty.genericT m2 n2 l2 => m == m2 && n == n2 && tyBeqList l l2
  | _, _ => false
termination_by structural t => t

/-- Boolean equality on lists of `Ty`. -/
def tyBeqList : List Ty → List Ty → Bool
  | [], [] => true
  | a :: as2, b :: bs => tyBeq a b && tyBeqList as2 bs
  | _, _ => false
termination_by structural l => l
end

mutual
theorem tyBeq_iff : ∀ a b, tyBeq a b = true ↔ a = b
  | Ty.noneT, b => by cases b <;> simp [tyBeq]
  | Ty.anyT, b => by cases b <;> simp [tyBeq]
  | Ty.strAnn a, b => by cases b <;> simp [tyBeq]
  | Ty.fwdRef a, b => by cases b <;> simp [tyBeq]
  | Ty.cls m n, b => by cases b <;> simp [tyBeq]
  | Ty.listT l, b => by
      cases b <;> simp [tyBeq]
      exact tyBeqList_iff l _
  | Ty.dictT l, b => by
      cases b <;> simp [tyBeq]
      exact tyBeqList_iff l _
  | Ty.typeT l, b => by
      cases b <;> simp [tyBeq]
      exact tyBeqList_iff l _
  | Ty.unionT l, b => by
      cases b <;> simp [tyBeq]
      exact tyBeqList_iff l _
  | Ty.genericT m n l, b => by
      cases b <;> simp [tyBeq, and_assoc]
      intro _ _
      exact tyBeqList_iff l _
termination_by structural a => a

theorem tyBeqList_iff : ∀ l l2, tyBeqList l l2 = true ↔ l = l2
  | [], [] => by simp [tyBeqList]
  | [], _ :: _ => by simp [tyBeqList]
  | _ :: _, [] => by simp [tyBeqList]
  | a :: as2, b :: bs => by
      simp [tyBeqList, tyBeq_iff a b, tyBeqList_iff as2 bs]
termination_by structural l => l
end

instance : DecidableEq Ty := fun a b => decidable_of_iff _ (tyBeq_iff a b)

/-- Python `s.split(sep)` on a single-character separator, as a structural
scan (the standard library's `splitOn` does not reduce definitionally). -/
def pySplitAux (sep : Char) : List Char → List Char → List (List Char)
  | [], acc => [acc.reverse]
  | c :: rest, acc =>
    if c == sep then acc.reverse :: pySplitAux sep rest []
    else pySplitAux sep rest (c :: acc)

/-- Python `s.split(sep)` for a one-character separator. -/
def pySplit (sep : Char) (s : String) : List String :=
  (pySplitAux sep s.data []).map String.mk

/-- Python `sep.join(parts)`. -/
def pyJoin (sep : String) : List String → String
  | [] => ""
  | x :: xs => xs.foldl (fun a b => a ++ sep ++ b) x

/-- Python `s.strip()` (whitespace on both ends). -/
def pyStrip (s : String) : String :=
  String.mk (((s.data.dropWhile Char.isWhitespace).reverse.dropWhile Char.isWhitespace).reverse)

/-- Python `s.startswith(p)`. -/
def strStarts (s p : String) : Bool := s.data.take p.data.length == p.data

/-- Python `s.endswith(p)`. -/
def strEnds (s p : String) : Bool := s.data.reverse.take p.data.length == p.data.reverse

/-- The single-quote character (ASCII 39). -/
def quoteChar : Char := Char.ofNat 39

/-- The double-quote character (ASCII 34). -/
def dquoteChar : Char := Char.ofNat 34

/-- A one-character string holding a single quote. -/
def quoteStr : String := String.mk [quoteChar]

/-- Characters removed by Python's `str.strip` with both quote characters. -/
def isQuoteChar (c : Char) : Bool := c == quoteChar || c == dquoteChar

/-- Python strip of leading and trailing quote characters. -/
def stripQuotes (s : String) : String :=
  String.mk (((s.data.dropWhile isQuoteChar).reverse.dropWhile isQuoteChar).reverse)

/-- `TypeResolver._is_dotted_name`. -/
def isDottedName (s : String) : Bool :=
  let clean := stripQuotes s
  clean.data.contains '.' && !(clean.data.contains '[') && !(clean.data.contains ' ')

/-- `TypeResolver._format_dotted_name`. -/
def formatDottedName (s : String) : String :=
  let clean := stripQuotes s
  match pySplit '.' clean with
  | [_, c] => c
  | _ => quoteStr ++ clean ++ quoteStr

/-- `TypeResolver._is_complex_type_expression`. -/
def isComplexTypeExpression (s : String) : Bool :=
  s.data.contains '[' && s.data.contains ']'

/-- `StubzenConfig.is_excluded_module`: the Python membership test
`excluded in module_name` is substring containment. -/
def isExcludedModule (cfg : List String) (m : String) : Bool :=
  cfg.any (fun e => decide (e.data <:+: m.data))

/-- Membership-insert, modelling `set.add` on a set represented as a list. -/
def listInsert {α : Type} [DecidableEq α] (l : List α) (a : α) : List α :=
  if a ∈ l then l else l ++ [a]

/-- `TypeResolver`'s mutable per-unit tracking state. -/
structure RState where
  used_types : List Ty := []
  string_type_references : List String := []
  forward_references : List String := []
  complex_type_expressions : List String := []
deriving DecidableEq

/-- The empty resolver state (`TypeResolver.__init__` / `clear`). -/
def emptyRState : RState := {}

/-- Word characters of the regex class `[a-zA-Z0-9_]`. -/
def wordChar (c : Char) : Bool := c.isAlphanum || c == '_'

/-- Accumulator automaton splitting a character list into maximal runs of
word characters (matches of a word-bounded regex scan). -/
def wordRunsAux : List Char → List Char → List (List Char)
  | [], acc => if acc.isEmpty then [] else [acc.reverse]
  | c :: rest, acc =>
    if wordChar c then wordRunsAux rest (c :: acc)
    else if acc.isEmpty then wordRunsAux rest []
    else acc.reverse :: wordRunsAux rest []

/-- Maximal word-character runs of a string. -/
def wordRuns (l : List Char) : List (List Char) := wordRunsAux l []

/-- `re.findall` of the word-bounded capitalized-identifier pattern
(an upper-case letter followed by word characters): the maximal word runs
whose first character is upper-case. -/
def findCapitalized (s : String) : List String :=
  ((wordRuns s.data).filter (fun r => (r.headD ' ').isUpper)).map (fun r => String.mk r)

/-- `TYPING_CONSTRUCTS` from `constants.py`. -/
def TYPING_CONSTRUCTS : List String :=
  ["Dict", "List", "Set", "Tuple", "Optional", "Union", "Any", "Type",
   "Callable", "Iterable", "Iterator", "Sequence", "Mapping", "MutableMapping",
   "ClassVar", "TypeVar", "Generic", "Literal", "Final",
   "Annotated", "Concatenate", "ParamSpec", "ForwardRef", "NotRequired",
   "Required", "TypedDict", "NamedTuple", "Counter", "DefaultDict", "OrderedDict"]

/-- `re.findall(TYPING_PATTERN, s)`: word-bounded occurrences of typing
construct names, i.e. maximal word runs equal to a construct name. -/
def findTypingConstructs (s : String) : List String :=
  ((wordRuns s.data).map (fun r => String.mk r)).filter (fun w => w ∈ TYPING_CONSTRUCTS)

/-- Scan automaton for the quoted-run pattern (quote, one or more
non-quote characters, quote), left to right, non-overlapping.  The second
argument is `some acc` while inside a candidate match (accumulated
characters reversed). -/
def findQuotedAux : List Char → Option (List Char) → List String
  | [], _ => []
  | c :: rest, none =>
    if c == quoteChar then findQuotedAux rest (some []) else findQuotedAux rest none
  | c :: rest, some acc =>
    if c == quoteChar then
      if acc.isEmpty then findQuotedAux rest (some [])
      else String.mk acc.reverse :: findQuotedAux rest none
    else findQuotedAux rest (some (c :: acc))

/-- All single-quoted nonempty runs of a string, in order. -/
def findQuoted (s : String) : List String := findQuotedAux s.data none

/-- `TypeResolver._extract_types_from_complex_string`. -/
def extractTypesFromComplexString (cfg : List String) (st : RState) (s : String) : RState :=
  let st1 := (findQuoted s).foldl (fun acc q =>
    let clean := pyStrip q
    if clean.data.contains '.' then
      match pySplit '.' clean with
      | [m, c] =>
        if !(isExcludedModule cfg m) then
          { acc with forward_references := listInsert acc.forward_references (m ++ "." ++ c) }
        else
          { acc with string_type_references := listInsert acc.string_type_references c }
      | _ => { acc with string_type_references := listInsert acc.string_type_references clean }
    else { acc with string_type_references := listInsert acc.string_type_references clean }) st
  (findCapitalized s).foldl (fun acc w =>
    if w ∈ TYPING_CONSTRUCTS then acc
    else { acc with string_type_references := listInsert acc.string_type_references w }) st1

/-- `TypeResolver.track_type`.  Only objects carrying both `__module__`
and `__name__` (concrete classes in this model) register a forward
reference.  Strings and `ForwardRef` objects are hashable, so the
`except TypeError` branch of the source is unreachable for the values
modelled here: they land in `used_types` only. -/
def trackType (cfg : List String) (st : RState) (t : Ty) : RState :=
  if t = Ty.anyT ∨ t = Ty.noneT ∨ t = Ty.strAnn "" then st
  else
    let st1 := { st with used_types := listInsert st.used_types t }
    match t with
    | Ty.cls m n =>
      if !(isExcludedModule cfg m) then
        { st1 with forward_references := listInsert st1.forward_references (m ++ "." ++ n) }
      else st1
    | _ => st1

mutual
/-- `TypeResolver.format_type`: render a type annotation to declaration
text while updating the tracking state.  The `len(args) == 2` test of the
union branch is realized by the `[a, b]` pattern. -/
def formatType (cfg : List String) (st : RState) : Ty → String × RState
  | Ty.noneT => ("None", st)
  | Ty.anyT => ("Any", st)
  | Ty.strAnn s =>
    if isDottedName s then (formatDottedName s, st)
    else if isComplexTypeExpression s then (s, extractTypesFromComplexString cfg st s)
    else
      let clean := stripQuotes s
      let st1 := { st with string_type_references := listInsert st.string_type_references clean }
      if strStarts s quoteStr && strEnds s quoteStr then (s, st1)
      else (quoteStr ++ clean ++ quoteStr, st1)
  | Ty.fwdRef s =>
    (quoteStr ++ s ++ quoteStr,
     { st with string_type_references := listInsert st.string_type_references s })
  | Ty.cls m n => (n, trackType cfg st (Ty.cls m n))
  | Ty.listT args =>
    let st1 := trackType cfg st (Ty.listT args)
    match args with
    | [] => ("List[Any]", st1)
    | a :: _ =>
      let (s1, st2) := formatType cfg st1 a
      ("List[" ++ s1 ++ "]", st2)
  | Ty.dictT args =>
    let st1 := trackType cfg st (Ty.dictT args)
    match args with
    | k :: v :: _ =>
      let (sk, st2) := formatType cfg st1 k
      let (sv, st3) := formatType cfg st2 v
      ("Dict[" ++ sk ++ ", " ++ sv ++ "]", st3)
    | _ => ("Dict[Any, Any]", st1)
  | Ty.typeT args =>
    let st1 := trackType cfg st (Ty.typeT args)
    match args with
    | [] => ("Type[Any]", st1)
    | a :: _ =>
      let (s1, st2) := formatType cfg st1 a
      ("Type[" ++ s1 ++ "]", st2)
  | Ty.unionT args =>
    let st1 := trackType cfg st (Ty.unionT args)
    match args with
    | [a, b] =>
      if Ty.noneT = a ∨ Ty.noneT = b then
        -- non_none = args[0] if args[1] is NoneType else args[1]
        if b = Ty.noneT then
          let (s1, st2) := formatType cfg st1 a
          ("Optional[" ++ s1 ++ "]", st2)
        else
          let (s1, st2) := formatType cfg st1 b
          ("Optional[" ++ s1 ++ "]", st2)
      else
        let (ss, st2) := formatTypeList cfg st1 [a, b]
        ("Union[" ++ pyJoin ", " ss ++ "]", st2)
    | other =>
      let (ss, st2) := formatTypeList cfg st1 other
      ("Union[" ++ pyJoin ", " ss ++ "]", st2)
  | Ty.genericT m n args =>
    let st1 := trackType cfg st (Ty.genericT m n args)
    match args with
    | [] => (n, st1)
    | _ =>
      let (ss, st2) := formatTypeList cfg st1 args
      (n ++ "[" ++ pyJoin ", " ss ++ "]", st2)
termination_by structural t => t

/-- State-threaded formatting of an argument list (the comprehension
over `get_args` results in the source). -/
def formatTypeList (cfg : List String) (st : RState) : List Ty → List String × RState
  | [] => ([], st)
  | t :: ts =>
    let (s1, st1) := formatType cfg st t
    let (ss, st2) := formatTypeList cfg st1 ts
    (s1 :: ss, st2)
termination_by structural l => l
end

example : (formatType [] emptyRState (Ty.unionT [Ty.cls "m" "A", Ty.noneT])).1 = "Optional[A]" := by rfl
example : (formatType [] emptyRState (Ty.strAnn "m.C")).1 = "C" := by rfl
example : (formatType [] emptyRState (Ty.strAnn "m.C")).2 = emptyRState := by rfl
example : (formatType [] emptyRState (Ty.unionT [Ty.cls "m" "A", Ty.cls "m" "B", Ty.noneT])).1 = "Union[A, B, None]" := by rfl

/-! ## Type-hint maps and the extractor's precedence merge

`SignatureExtractor._get_type_hints` (extractor.py 136-153) builds a Python
dict by `update`-folding per-class hint maps.  A dict is modelled as an
association list with first-match lookup; `dictInsert` is a single key
assignment, `dictUpdate` is `dict.update`. -/

/-- A Python dict of member name to type hint. -/
abbrev HintMap := List (String × Ty)

/-- Dict lookup (`d.get(k)`). -/
def dictGet (m : HintMap) (n : String) : Option Ty :=
  match m with
  | [] => none
  | p :: rest => if p.1 = n then some p.2 else dictGet rest n

/-- Dict single-key assignment (`d[k] = v`): overwrite in place, else append. -/
def dictInsert (m : HintMap) (k : String) (v : Ty) : HintMap :=
  if (dictGet m k).isSome then m.map (fun p => if p.1 = k then (k, v) else p)
  else m ++ [(k, v)]

/-- Dict bulk update (`d.update(delta)`). -/
def dictUpdate (m delta : HintMap) : HintMap :=
  delta.foldl (fun acc p => dictInsert acc p.1 p.2) m

/-- Keys of a hint map. -/
def keysOf (m : HintMap) : List String := m.map Prod.fst

/-- Left-biased choice on options (`a if a is not None else b`). -/
def optOr (a b : Option Ty) : Option Ty :=
  match a with
  | some v => some v
  | none => b

/-- One level of a class hierarchy: the class name together with the hint
map `_get_direct_type_hints` yields for it (the resolved `get_type_hints`
output, or the raw `__annotations__` fallback). -/
structure PyCls where
  name : String
  hints : HintMap
deriving DecidableEq

/-- `SignatureExtractor._get_type_hints`: the argument is the class's
method resolution order, the class itself first, then ancestors
nearest to farthest (`cls.__mro__`). -/
def getTypeHints (mro : List PyCls) (includeInherited : Bool) : HintMap :=
  match mro with
  | [] => []
  | c :: ancestors =>
    let base :=
      if includeInherited then
        ((ancestors.filter (fun b => b.name != "object")).reverse).foldl
          (fun acc b => dictUpdate acc b.hints) []
      else []
    dictUpdate base c.hints

/-- The TypeVar-bound gap fill of `extract_class_signature` (extractor.py
64-70): assign a bound hint only when the current slot is missing or
holds the placeholder. -/
def fillHint (m : HintMap) (n : String) (h : Ty) : HintMap :=
  if dictGet m n = none ∨ dictGet m n = some Ty.anyT then dictInsert m n h else m

/-- Fold every bound class's hint map into the working map, gap-filling
slot by slot (the nested `for` loops of extractor.py 60-70). -/
def mergeBoundHints (m : HintMap) (boundMaps : List HintMap) : HintMap :=
  boundMaps.foldl (fun acc bm => bm.foldl (fun a p => fillHint a p.1 p.2) acc) m

/-- The effective hint map of `extract_class_signature` (extractor.py
51-70): precedence merge over the hierarchy, then TypeVar-bound gap fill
(the list of bound classes is the result of `_get_typevar_bounds`). -/
def effectiveTypeHints (mro : List PyCls) (boundMros : List (List PyCls))
    (includeInherited : Bool) : HintMap :=
  let th := getTypeHints mro includeInherited
  if includeInherited then
    mergeBoundHints th (boundMros.map (fun b => getTypeHints b true))
  else th

/-! ### Dictionary lemmas -/

theorem dictGet_eq_none_iff (m : HintMap) (k : String) :
    dictGet m k = none ↔ k ∉ keysOf m := by
  induction m with
  | nil => simp [dictGet, keysOf]
  | cons p rest ih =>
    by_cases hp : p.1 = k
    · simp [dictGet, hp, keysOf]
    · simp [dictGet, hp, keysOf, ih]
      intro h
      exact fun hk => hp hk.symm

theorem dictGet_setKey (m : HintMap) (k : String) (v : Ty) (n : String) :
    dictGet (m.map (fun p => if p.1 = k then (k, v) else p)) n
      = if n = k then (dictGet m k).map (fun _ => v) else dictGet m n := by
  induction m with
  | nil => simp [dictGet]
  | cons p rest ih =>
    by_cases hp : p.1 = k
    · by_cases hn : n = k
      · subst hn
        simp [dictGet, hp]
      · have hpn : ¬ p.1 = n := fun h => hn (h ▸ hp ▸ rfl)
        simp only [List.map_cons, hp, if_true, dictGet, ih, if_neg hn]
        split
        · next hkn => exact absurd hkn.symm hn
        · rfl
    · by_cases hn : n = k
      · subst hn
        have hpn : ¬ p.1 = n := hp
        simp only [List.map_cons, hp, if_false, dictGet, if_neg hpn, ih, if_pos rfl]
      · simp only [List.map_cons, hp, if_false, dictGet, ih, if_neg hn]

theorem dictGet_append_single (m : HintMap) (k : String) (v : Ty) (n : String) :
    dictGet (m ++ [(k, v)]) n = optOr (dictGet m n) (if n = k then some v else none) := by
  induction m with
  | nil =>
    by_cases hn : k = n
    · subst hn; simp [dictGet, optOr]
    · simp [dictGet, hn, optOr]
      rw [if_neg (fun h => hn h.symm)]
  | cons p rest ih =>
    by_cases hp : p.1 = n
    · simp [dictGet, hp, optOr]
    · simp [dictGet, hp, optOr, ih]

theorem dictGet_dictInsert (m : HintMap) (k : String) (v : Ty) (n : String) :
    dictGet (dictInsert m k v) n = if n = k then some v else dictGet m n := by
  unfold dictInsert
  by_cases h : (dictGet m k).isSome
  · rw [if_pos h, dictGet_setKey]
    by_cases hn : n = k
    · rcases Option.isSome_iff_exists.mp h with ⟨w, hw⟩
      simp [hn, hw]
    · simp [hn]
  · rw [if_neg h, dictGet_append_single]
    by_cases hn : n = k
    · subst hn
      have : dictGet m n = none := Option.not_isSome_iff_eq_none.mp h
      simp [this, optOr]
    · simp [hn, optOr]
      cases dictGet m n <;> rfl

theorem keysOf_dictInsert_of_mem (m : HintMap) (k : String) (v : Ty)
    (h : k ∈ keysOf m) : keysOf (dictInsert m k v) = keysOf m := by
  have hg : (dictGet m k).isSome := by
    cases hres : dictGet m k with
    | none => exact absurd ((dictGet_eq_none_iff m k).mp hres) (by simpa using h)
    | some w => simp
  unfold dictInsert
  rw [if_pos hg]
  unfold keysOf
  rw [List.map_map]
  apply List.map_congr_left
  intro p _
  by_cases hp : p.1 = k <;> simp [hp]

theorem keysOf_dictInsert_of_not_mem (m : HintMap) (k : String) (v : Ty)
    (h : k ∉ keysOf m) : keysOf (dictInsert m k v) = keysOf m ++ [k] := by
  have hg : ¬ (dictGet m k).isSome := by
    rw [(dictGet_eq_none_iff m k).mpr h]
    simp
  unfold dictInsert
  rw [if_neg hg]
  simp [keysOf]

theorem keysOf_dictInsert_nodup (m : HintMap) (k : String) (v : Ty)
    (h : (keysOf m).Nodup) : (keysOf (dictInsert m k v)).Nodup := by
  by_cases hk : k ∈ keysOf m
  · rw [keysOf_dictInsert_of_mem m k v hk]; exact h
  · rw [keysOf_dictInsert_of_not_mem m k v hk]
    simp [List.nodup_append, h, hk]

theorem keysOf_dictUpdate_nodup (delta m : HintMap)
    (h : (keysOf m).Nodup) : (keysOf (dictUpdate m delta)).Nodup := by
  induction delta generalizing m with
  | nil => exact h
  | cons p rest ih =>
    exact ih (dictInsert m p.1 p.2) (keysOf_dictInsert_nodup m p.1 p.2 h)

theorem dictGet_dictUpdate (delta m : HintMap) (n : String)
    (hnd : (keysOf delta).Nodup) :
    dictGet (dictUpdate m delta) n = optOr (dictGet delta n) (dictGet m n) := by
  induction delta generalizing m with
  | nil => simp [dictUpdate, dictGet, optOr]
  | cons p rest ih =>
    have htail : (keysOf rest).Nodup := (List.nodup_cons.mp hnd).2
    have hhead : p.1 ∉ keysOf rest := by
      have := (List.nodup_cons.mp hnd).1
      simpa [keysOf] using this
    show dictGet (dictUpdate (dictInsert m p.1 p.2) rest) n = _
    rw [ih (dictInsert m p.1 p.2) htail, dictGet_dictInsert]
    by_cases hn : n = p.1
    · have hrest : dictGet rest n = none := (dictGet_eq_none_iff rest n).mpr (hn ▸ hhead)
      have hhd : dictGet (p :: rest) n = some p.2 := by
        simp [dictGet, if_pos (hn ▸ rfl : p.1 = n)]
      rw [hrest, hhd, if_pos hn]
      rfl
    · have hpn : ¬ p.1 = n := fun h => hn h.symm
      have hhd : dictGet (p :: rest) n = dictGet rest n := by
        simp [dictGet, if_neg hpn]
      rw [hhd, if_neg hn]

theorem dictGet_foldUpdate (ls : List PyCls) (n : String)
    (h : ∀ l ∈ ls, (keysOf l.hints).Nodup) :
    dictGet (ls.foldl (fun acc b => dictUpdate acc b.hints) []) n
      = (ls.reverse).findSome? (fun l => dictGet l.hints n) := by
  induction ls using List.reverseRecOn with
  | nil => simp [dictGet]
  | append_singleton ls l ih =>
    rw [List.foldl_append]
    simp only [List.foldl_cons, List.foldl_nil]
    rw [dictGet_dictUpdate l.hints _ n (h l (by simp))]
    rw [List.reverse_append]
    simp only [List.reverse_cons, List.reverse_nil, List.nil_append, List.singleton_append,
      List.findSome?_cons]
    rw [ih (fun x hx => h x (by simp [hx]))]
    cases dictGet l.hints n <;> rfl

theorem nodup_foldUpdate (ls : List PyCls) (m : HintMap) (h : (keysOf m).Nodup) :
    (keysOf (ls.foldl (fun acc b => dictUpdate acc b.hints) m)).Nodup := by
  induction ls generalizing m with
  | nil => exact h
  | cons l rest ih => exact ih _ (keysOf_dictUpdate_nodup l.hints m h)

theorem getTypeHints_keys_nodup (mro : List PyCls) (b : Bool) :
    (keysOf (getTypeHints mro b)).Nodup := by
  cases mro with
  | nil => simp [getTypeHints, keysOf]
  | cons c anc =>
    unfold getTypeHints
    apply keysOf_dictUpdate_nodup
    cases b with
    | true => exact nodup_foldUpdate _ _ (by simp [keysOf])
    | false => simp [keysOf]

/-- C1.  With inheritance requested, `_get_type_hints` folds the ancestors
most-distant to nearest via dict overwrite and finally overwrites with
the class's own hints, so the lookup of any member name yields the
nearest hierarchy level's annotation (ancestors named `object` excluded). -/
theorem extractor_type_hint_precedence (c : PyCls) (anc : List PyCls) (n : String)
    (hnd : ∀ l ∈ c :: anc, (keysOf l.hints).Nodup) :
    dictGet (getTypeHints (c :: anc) true) n
      = (c :: anc.filter (fun b => b.name != "object")).findSome?
          (fun l => dictGet l.hints n) := by
  show dictGet (dictUpdate (((anc.filter (fun b => b.name != "object")).reverse).foldl
      (fun acc b => dictUpdate acc b.hints) []) c.hints) n = _
  rw [dictGet_dictUpdate c.hints _ n (hnd c (by simp))]
  rw [dictGet_foldUpdate _ n (fun l hl => hnd l (by
    simp only [List.mem_reverse, List.mem_filter] at hl
    simp [hl.1]))]
  rw [List.reverse_reverse, List.findSome?_cons]
  cases dictGet c.hints n <;> rfl

/-- Witness for C1: ancestor `A` declares `x: int`, descendant `B`
declares `x: str`; the effective hint for `x` is `str`. -/
theorem extractor_type_hint_precedence_witness :
    (∀ l ∈ [PyCls.mk "B" [("x", Ty.cls "builtins" "str")],
            PyCls.mk "A" [("x", Ty.cls "builtins" "int")]],
        (keysOf l.hints).Nodup)
    ∧ dictGet (getTypeHints [PyCls.mk "B" [("x", Ty.cls "builtins" "str")],
                             PyCls.mk "A" [("x", Ty.cls "builtins" "int")]] true) "x"
        = some (Ty.cls "builtins" "str") := by
  refine ⟨by decide, ?_⟩
  rw [extractor_type_hint_precedence (PyCls.mk "B" [("x", Ty.cls "builtins" "str")])
    [PyCls.mk "A" [("x", Ty.cls "builtins" "int")]] "x" (by decide)]
  decide

theorem dictGet_fillHint_ne (m : HintMap) (k : String) (h : Ty) (n : String)
    (hn : n ≠ k) : dictGet (fillHint m k h) n = dictGet m n := by
  unfold fillHint
  by_cases hc : dictGet m k = none ∨ dictGet m k = some Ty.anyT
  · rw [if_pos hc, dictGet_dictInsert, if_neg hn]
  · rw [if_neg hc]

theorem dictGet_fillHint_gap (m : HintMap) (k : String) (h : Ty)
    (hm : dictGet m k = none ∨ dictGet m k = some Ty.anyT) :
    dictGet (fillHint m k h) k = some h := by
  unfold fillHint
  rw [if_pos hm, dictGet_dictInsert, if_pos rfl]

theorem dictGet_fillHint_concrete (m : HintMap) (k : String) (h : Ty) (n : String) (t : Ty)
    (hm : dictGet m n = some t) (ht : t ≠ Ty.anyT) :
    dictGet (fillHint m k h) n = some t := by
  by_cases hn : n = k
  · unfold fillHint
    have hc : ¬ (dictGet m k = none ∨ dictGet m k = some Ty.anyT) := by
      rw [← hn, hm]
      rintro (hx | hx)
      · exact Option.noConfusion hx
      · exact ht (Option.some.injEq _ _ ▸ hx ▸ rfl)
    rw [if_neg hc]
    exact hm
  · rw [dictGet_fillHint_ne m k h n hn, hm]

theorem foldFill_concrete (bm : HintMap) (m : HintMap) (n : String) (t : Ty)
    (hm : dictGet m n = some t) (ht : t ≠ Ty.anyT) :
    dictGet (bm.foldl (fun a p => fillHint a p.1 p.2) m) n = some t := by
  induction bm generalizing m with
  | nil => exact hm
  | cons p rest ih =>
    exact ih (fillHint m p.1 p.2) (dictGet_fillHint_concrete m p.1 p.2 n t hm ht)

theorem mergeBoundHints_concrete (bms : List HintMap) (m : HintMap) (n : String) (t : Ty)
    (hm : dictGet m n = some t) (ht : t ≠ Ty.anyT) :
    dictGet (mergeBoundHints m bms) n = some t := by
  induction bms generalizing m with
  | nil => exact hm
  | cons bm rest ih =>
    exact ih _ (foldFill_concrete bm m n t hm ht)

theorem foldFill_gap (bm : HintMap) (m : HintMap) (n : String)
    (hnd : (keysOf bm).Nodup)
    (hm : dictGet m n = none ∨ dictGet m n = some Ty.anyT) :
    dictGet (bm.foldl (fun a p => fillHint a p.1 p.2) m) n
      = optOr (dictGet bm n) (dictGet m n) := by
  induction bm generalizing m with
  | nil => simp [dictGet, optOr]
  | cons p rest ih =>
    have htail : (keysOf rest).Nodup := (List.nodup_cons.mp hnd).2
    have hhead : p.1 ∉ keysOf rest := by
      have := (List.nodup_cons.mp hnd).1
      simpa [keysOf] using this
    by_cases hn : n = p.1
    · have hm1 : dictGet m p.1 = none ∨ dictGet m p.1 = some Ty.anyT := hn ▸ hm
      have hfill : dictGet (fillHint m p.1 p.2) n = some p.2 := by
        rw [hn]
        exact dictGet_fillHint_gap m p.1 p.2 hm1
      have hrest : dictGet rest n = none :=
        (dictGet_eq_none_iff rest n).mpr (by rw [hn]; exact hhead)
      have hhd : dictGet (p :: rest) n = some p.2 := by
        simp [dictGet, if_pos hn.symm]
      by_cases hp2 : p.2 = Ty.anyT
      · have hres := ih (fillHint m p.1 p.2) htail (Or.inr (hp2 ▸ hfill))
        rw [List.foldl_cons, hres, hrest, hfill, hhd]
        simp [optOr, hp2]
      · have hres := foldFill_concrete rest (fillHint m p.1 p.2) n p.2 hfill hp2
        rw [List.foldl_cons, hres, hhd]
        simp [optOr]
    · have hfill : dictGet (fillHint m p.1 p.2) n = dictGet m n :=
        dictGet_fillHint_ne m p.1 p.2 n hn
      have hres := ih (fillHint m p.1 p.2) htail (hfill ▸ hm)
      rw [List.foldl_cons, hres, hfill]
      have hhd : dictGet (p :: rest) n = dictGet rest n := by
        simp [dictGet, if_neg (fun hh : p.1 = n => hn hh.symm)]
      rw [hhd]

/-- C2.  TypeVar-bound hints are merged only into missing or placeholder
slots of the effective hint map: a concrete own/ancestor annotation is
never overridden (first conjunct, any list of bounds), and a missing or
`Any` slot receives the bound class's fully inherited hint when it has
one (second conjunct, a single bound class). -/
theorem typevar_bound_gap_fill (mro bound : List PyCls) (bms : List (List PyCls)) (n : String) :
    (∀ t, dictGet (getTypeHints mro true) n = some t → t ≠ Ty.anyT →
        dictGet (effectiveTypeHints mro bms true) n = some t)
    ∧ ((dictGet (getTypeHints mro true) n = none
          ∨ dictGet (getTypeHints mro true) n = some Ty.anyT) →
        dictGet (effectiveTypeHints mro [bound] true) n
          = optOr (dictGet (getTypeHints bound true) n)
                  (dictGet (getTypeHints mro true) n)) := by
  constructor
  · intro t hm ht
    exact mergeBoundHints_concrete _ _ n t hm ht
  · intro hm
    exact foldFill_gap _ _ n (getTypeHints_keys_nodup bound true) hm

/-- Witness for C2: `Interface` declares `m: int`; a class `B` bound by
`Interface` with no own `m` gets `int`, while a `B` declaring `m: str`
keeps `str`. -/
theorem typevar_bound_gap_fill_witness :
    dictGet (effectiveTypeHints [PyCls.mk "B" []]
        [[PyCls.mk "Interface" [("m", Ty.cls "builtins" "int")]]] true) "m"
      = some (Ty.cls "builtins" "int")
    ∧ dictGet (effectiveTypeHints [PyCls.mk "B" [("m", Ty.cls "builtins" "str")]]
        [[PyCls.mk "Interface" [("m", Ty.cls "builtins" "int")]]] true) "m"
      = some (Ty.cls "builtins" "str") := by
  constructor
  · have h := (typevar_bound_gap_fill [PyCls.mk "B" []]
      [PyCls.mk "Interface" [("m", Ty.cls "builtins" "int")]]
      [[PyCls.mk "Interface" [("m", Ty.cls "builtins" "int")]]] "m").2 (Or.inl (by decide))
    rw [h]
    decide
  · exact (typevar_bound_gap_fill [PyCls.mk "B" [("m", Ty.cls "builtins" "str")]]
      [PyCls.mk "Interface" [("m", Ty.cls "builtins" "int")]]
      [[PyCls.mk "Interface" [("m", Ty.cls "builtins" "int")]]] "m").1
      (Ty.cls "builtins" "str") (by decide) (by decide)

/-! ## Signature records and the member-processing loop

`dataclasses.py` records and the dedup loop of
`SignatureExtractor.extract_class_signature` (extractor.py 109-119). -/

/-- The missing-annotation record dataclass of dataclasses.py
(source name ends differently; shortened here). -/
structure MissingAnnot where
  class_name : String
  class_module : String
  member_name : String
  member_type : String
  details : String := ""
deriving DecidableEq

/-- `SignatureInfo` (dataclasses.py). -/
structure SignatureInfo where
  name : String
  signature_type : String
  raw_signature : String
  return_type : Option Ty := none
  param_types : List (String × Ty) := []
  details : String := ""
  source_class : Option String := none
deriving DecidableEq

/-- One candidate member triple `(name, obj, defining_class)`; the member
object itself is abstracted away (the processing loop only dispatches it
to the creators, modelled by the `create` parameter below). -/
structure Member where
  name : String
  definingClass : String
deriving DecidableEq

/-- `sig_info.source_class = defining_class.__name__` (extractor.py 117). -/
def withSource (m : Member) (s : SignatureInfo) : SignatureInfo :=
  { s with source_class := some m.definingClass }

/-- The member-processing loop of `extract_class_signature` (extractor.py
109-119): skip names already seen; otherwise run the creators (`create`);
on success set the source class, emit, and mark the name seen.  A member
whose creation returns `None` is not marked seen. -/
def processMembersAux (create : Member → Option SignatureInfo) :
    List Member → List SignatureInfo → List String → List SignatureInfo
  | [], acc, _ => acc
  | m :: rest, acc, seen =>
    if m.name ∈ seen then processMembersAux create rest acc seen
    else
      match create m with
      | some s => processMembersAux create rest (acc ++ [withSource m s]) (seen ++ [m.name])
      | none => processMembersAux create rest acc seen

/-- The processing loop started with empty output and empty seen-set. -/
def processMembers (create : Member → Option SignatureInfo) (members : List Member) :
    List SignatureInfo :=
  processMembersAux create members [] []

/-- First occurrence of each member name, in candidate order. -/
def dedupFirstAux : List Member → List String → List Member
  | [], _ => []
  | m :: rest, seen =>
    if m.name ∈ seen then dedupFirstAux rest seen
    else m :: dedupFirstAux rest (seen ++ [m.name])

/-- Keep only the first occurrence of each member name. -/
def dedupFirst (ms : List Member) : List Member := dedupFirstAux ms []

theorem processMembersAux_names_nodup (create : Member → Option SignatureInfo)
    (hname : ∀ m s, create m = some s → s.name = m.name) :
    ∀ (ms : List Member) (acc : List SignatureInfo) (seen : List String),
      acc.map (fun s => s.name) = seen → seen.Nodup →
      ((processMembersAux create ms acc seen).map (fun s => s.name)).Nodup := by
  intro ms
  induction ms with
  | nil => intro acc seen hacc hseen; simpa [processMembersAux, hacc] using hseen
  | cons m rest ih =>
    intro acc seen hacc hseen
    unfold processMembersAux
    by_cases hm : m.name ∈ seen
    · rw [if_pos hm]
      exact ih acc seen hacc hseen
    · rw [if_neg hm]
      cases hc : create m with
      | none => exact ih acc seen hacc hseen
      | some s =>
        apply ih (acc ++ [withSource m s]) (seen ++ [m.name])
        · have hsn : (withSource m s).name = m.name := hname m s hc
          simp [hacc, hsn]
        · simp [List.nodup_append, hseen, hm]

theorem processMembersAux_eq_dedup (create : Member → Option SignatureInfo) :
    ∀ (ms : List Member) (acc : List SignatureInfo) (seen : List String),
      (∀ m ∈ ms, (create m).isSome) →
      processMembersAux create ms acc seen
        = acc ++ (dedupFirstAux ms seen).filterMap (fun m => (create m).map (withSource m)) := by
  intro ms
  induction ms with
  | nil => intro acc seen _; simp [processMembersAux, dedupFirstAux]
  | cons m rest ih =>
    intro acc seen hall
    unfold processMembersAux dedupFirstAux
    by_cases hm : m.name ∈ seen
    · rw [if_pos hm, if_pos hm]
      exact ih acc seen (fun x hx => hall x (by simp [hx]))
    · rw [if_neg hm, if_neg hm]
      cases hc : create m with
      | none =>
        exact absurd (hall m (by simp)) (by simp [hc])
      | some s =>
        show processMembersAux create rest (acc ++ [withSource m s]) (seen ++ [m.name])
          = acc ++ List.filterMap (fun m => Option.map (withSource m) (create m))
              (m :: dedupFirstAux rest (seen ++ [m.name]))
        rw [ih (acc ++ [withSource m s]) (seen ++ [m.name])
          (fun x hx => hall x (by simp [hx]))]
        simp [hc, List.append_assoc]

/-- C3.  The processing loop emits each member name at most once; and when
every candidate's creation succeeds, the output is exactly the creations
of the first occurrence of each name in candidate order, each attributed
to its first-encountered defining class. -/
theorem member_dedup_first_wins (create : Member → Option SignatureInfo)
    (members : List Member)
    (hname : ∀ m s, create m = some s → s.name = m.name) :
    ((processMembers create members).map (fun s => s.name)).Nodup
    ∧ ((∀ m ∈ members, (create m).isSome) →
        processMembers create members
          = (dedupFirst members).filterMap (fun m => (create m).map (withSource m))) := by
  constructor
  · exact processMembersAux_names_nodup create hname members [] [] rfl List.nodup_nil
  · intro hall
    have h := processMembersAux_eq_dedup create members [] [] hall
    simpa [processMembers, dedupFirst] using h

/-- Witness for C3: the name `run` is produced by two passes
(defining classes `B` then `A`); it appears once, attributed to `B`. -/
theorem member_dedup_first_wins_witness :
    ((processMembers
        (fun m => some { name := m.name, signature_type := "method", raw_signature := "d" })
        [Member.mk "run" "B", Member.mk "run" "A", Member.mk "x" "A"]).map
          (fun s => s.name)).Nodup
    ∧ processMembers
        (fun m => some { name := m.name, signature_type := "method", raw_signature := "d" })
        [Member.mk "run" "B", Member.mk "run" "A", Member.mk "x" "A"]
      = (dedupFirst [Member.mk "run" "B", Member.mk "run" "A", Member.mk "x" "A"]).filterMap
          (fun m => ((fun (m : Member) =>
              some { name := m.name, signature_type := "method",
                     raw_signature := "d" : SignatureInfo }) m).map (withSource m)) := by
  have h := member_dedup_first_wins
    (fun m => some { name := m.name, signature_type := "method", raw_signature := "d" })
    [Member.mk "run" "B", Member.mk "run" "A", Member.mk "x" "A"]
    (fun m s hs => by
      injection hs with h2
      rw [← h2])
  exact ⟨h.1, h.2 (by decide)⟩

/-! ## Method signature creation

`MethodSignatureCreator.create_signature` (signature_creator/method.py)
and `_format_default_value` (signature_creator/base.py). -/

/-- `VOID_METHODS` from `constants.py`. -/
def VOID_METHODS : List String := ["__init__", "__del__", "__enter__", "__exit__"]

/-- A parameter default value as classified by `_format_default_value`
(floats are omitted from the model; `otherV` covers every value that is
not `None`, a string, a number or a boolean). -/
inductive PyDefault where
  | noneV : PyDefault
  | strV : String → PyDefault
  | intV : Int → PyDefault
  | boolV : Bool → PyDefault
  | otherV : PyDefault
deriving DecidableEq

/-- `SignatureCreator._format_default_value`. -/
def formatDefaultValue : PyDefault → String
  | PyDefault.noneV => " = None"
  | PyDefault.strV s => " = " ++ String.mk [dquoteChar] ++ s ++ String.mk [dquoteChar]
  | PyDefault.intV i => " = " ++ toString i
  | PyDefault.boolV b => " = " ++ (if b then "True" else "False")
  | PyDefault.otherV => " = ..."

/-- The default-value suffix of a rendered parameter (empty when the
parameter has no default, method.py 52-53). -/
def formatDefaultOpt : Option PyDefault → String
  | none => ""
  | some d => formatDefaultValue d

/-- One parameter of an inspected signature. -/
structure Param where
  name : String
  annotation : Option Ty := none
  default : Option PyDefault := none
deriving DecidableEq

/-- The data `inspect.signature` provides for a method. -/
structure MethodInput where
  name : String
  params : List Param
  ret : Option Ty := none
deriving DecidableEq

/-- The context fields the method creator reads:
`context['target_class_name']` and `defining_class.__module__`. -/
structure MethodCtx where
  targetClassName : String
  definingModule : String
deriving DecidableEq

/-- The extractor-level mutable state a creator touches: the shared
resolver and the `missing_annotations` list. -/
structure ExtState where
  resolver : RState := emptyRState
  missing : List MissingAnnot := []
deriving DecidableEq

/-- The `MissingAnnot` recorded for an unannotated parameter
(method.py 41-47). -/
def mkParamMissing (ctx : MethodCtx) (methodName pname : String) : MissingAnnot :=
  { class_name := ctx.targetClassName, class_module := ctx.definingModule,
    member_name := methodName ++ "." ++ pname, member_type := "method_parameter",
    details := "parameter in " ++ methodName ++ "()" }

/-- The `MissingAnnot` recorded for a missing return annotation
(method.py 73-79). -/
def mkReturnMissing (ctx : MethodCtx) (methodName : String) : MissingAnnot :=
  { class_name := ctx.targetClassName, class_module := ctx.definingModule,
    member_name := methodName, member_type := "method_return",
    details := "missing return type annotation" }

/-- The body of the parameter loop (method.py 23-55) for one parameter:
`self` is skipped; an annotated parameter is tracked, formatted and
recorded in `param_types`; an unannotated one renders with the
placeholder and appends one `MissingAnnot`. -/
def processParam (cfg : List String) (ctx : MethodCtx) (methodName : String)
    (st : ExtState) (p : Param) : Option (String × (String × Ty)) × ExtState :=
  if p.name = "self" then (none, st)
  else
    match p.annotation with
    | some ty =>
      let r1 := trackType cfg st.resolver ty
      let fr := formatType cfg r1 ty
      (some (p.name ++ ": " ++ fr.1 ++ formatDefaultOpt p.default, (p.name, ty)),
       { st with resolver := fr.2 })
    | none =>
      (some (p.name ++ ": Any" ++ formatDefaultOpt p.default, (p.name, Ty.anyT)),
       { st with missing := st.missing ++ [mkParamMissing ctx methodName p.name] })

/-- The full parameter loop: rendered parameter strings, the
`param_types` dict entries, and the final state. -/
def processParams (cfg : List String) (ctx : MethodCtx) (methodName : String)
    (st : ExtState) : List Param → List String × List (String × Ty) × ExtState
  | [] => ([], [], st)
  | p :: rest =>
    let r := processParam cfg ctx methodName st p
    let rec2 := processParams cfg ctx methodName r.2 rest
    match r.1 with
    | some spt => (spt.1 :: rec2.1, spt.2 :: rec2.2.1, rec2.2.2)
    | none => rec2

/-- The return-annotation handling (method.py 57-80): an annotated return
is tracked and rendered with an arrow; an unannotated one renders nothing
and records a `MissingAnnot` unless the method is in `VOID_METHODS`. -/
def renderReturn (cfg : List String) (ctx : MethodCtx) (methodName : String)
    (st : ExtState) : Option Ty → String × Option Ty × ExtState
  | some ty =>
    let r1 := trackType cfg st.resolver ty
    let fr := formatType cfg r1 ty
    (" -> " ++ fr.1, some ty, { st with resolver := fr.2 })
  | none =>
    if methodName ∈ VOID_METHODS then ("", none, st)
    else ("", none, { st with missing := st.missing ++ [mkReturnMissing ctx methodName] })

/-- `MethodSignatureCreator.create_signature` (non-exception path; the
model's total functions never raise, so the degraded
`(*args, **kwargs)` fallback of method.py 93-100 is unreachable). -/
def createMethodSignature (cfg : List String) (ctx : MethodCtx) (st : ExtState)
    (inp : MethodInput) : SignatureInfo × ExtState :=
  let pr := processParams cfg ctx inp.name st inp.params
  let rr := renderReturn cfg ctx inp.name pr.2.2 inp.ret
  let paramsStr := pyJoin ", " pr.1
  let raw := "def " ++ inp.name ++ "(self"
      ++ (if paramsStr ≠ "" then ", " ++ paramsStr else "") ++ ")" ++ rr.1 ++ ": ..."
  ({ name := inp.name, signature_type := "method", raw_signature := raw,
     return_type := rr.2.1, param_types := pr.2.1 }, rr.2.2)

/-! ### Missing-annotation bookkeeping of the method creator -/

/-- The missing-annotation records the parameter loop appends for one
parameter. -/
def paramDelta (ctx : MethodCtx) (mn : String) (q : Param) : List MissingAnnot :=
  if q.name = "self" then []
  else match q.annotation with
    | some _ => []
    | none => [mkParamMissing ctx mn q.name]

/-- The missing-annotation records the parameter loop appends for a
parameter list. -/
def missingOfParams (ctx : MethodCtx) (mn : String) : List Param → List MissingAnnot
  | [] => []
  | q :: rest => paramDelta ctx mn q ++ missingOfParams ctx mn rest

/-- The missing-annotation records return handling appends. -/
def retDelta (ctx : MethodCtx) (mn : String) : Option Ty → List MissingAnnot
  | some _ => []
  | none => if mn ∈ VOID_METHODS then [] else [mkReturnMissing ctx mn]

/-- The `param_types` entry a parameter contributes. -/
def ptypeOf (q : Param) : Option (String × Ty) :=
  if q.name = "self" then none
  else match q.annotation with
    | some ty => some (q.name, ty)
    | none => some (q.name, Ty.anyT)

/-- A record is the parameter missing-annotation keyed by method and
parameter name. -/
def isParamMissingFor (mn pname : String) (r : MissingAnnot) : Bool :=
  r.member_type == "method_parameter" && r.member_name == mn ++ "." ++ pname

/-- A record is the return missing-annotation keyed by method name. -/
def isReturnMissingFor (mn : String) (r : MissingAnnot) : Bool :=
  r.member_type == "method_return" && r.member_name == mn

theorem strAppend_left_cancel (a x y : String) (h : a ++ x = a ++ y) : x = y := by
  apply String.ext
  have hd := congrArg String.data h
  rw [String.data_append, String.data_append] at hd
  exact List.append_cancel_left hd

theorem dotKey_inj (mn x y : String) (h : mn ++ "." ++ x = mn ++ "." ++ y) : x = y :=
  strAppend_left_cancel (mn ++ ".") x y h

theorem dotKey_ne (mn x y : String) (h : x ≠ y) : mn ++ "." ++ x ≠ mn ++ "." ++ y :=
  fun hc => h (dotKey_inj mn x y hc)

theorem processParam_self (cfg : List String) (ctx : MethodCtx) (mn : String)
    (st : ExtState) (q : Param) (hq : q.name = "self") :
    processParam cfg ctx mn st q = (none, st) := by
  simp [processParam, hq]

theorem processParam_annotated (cfg : List String) (ctx : MethodCtx) (mn : String)
    (st : ExtState) (q : Param) (ty : Ty) (hq : ¬ q.name = "self")
    (ha : q.annotation = some ty) :
    processParam cfg ctx mn st q
      = (some (q.name ++ ": " ++ (formatType cfg (trackType cfg st.resolver ty) ty).1
            ++ formatDefaultOpt q.default, (q.name, ty)),
         { st with resolver := (formatType cfg (trackType cfg st.resolver ty) ty).2 }) := by
  simp [processParam, hq, ha]

theorem processParam_unannotated (cfg : List String) (ctx : MethodCtx) (mn : String)
    (st : ExtState) (q : Param) (hq : ¬ q.name = "self") (ha : q.annotation = none) :
    processParam cfg ctx mn st q
      = (some (q.name ++ ": Any" ++ formatDefaultOpt q.default, (q.name, Ty.anyT)),
         { st with missing := st.missing ++ [mkParamMissing ctx mn q.name] }) := by
  simp [processParam, hq, ha]

theorem processParam_missing (cfg : List String) (ctx : MethodCtx) (mn : String)
    (st : ExtState) (q : Param) :
    (processParam cfg ctx mn st q).2.missing = st.missing ++ paramDelta ctx mn q := by
  by_cases hq : q.name = "self"
  · rw [processParam_self cfg ctx mn st q hq]
    simp [paramDelta, hq]
  · cases ha : q.annotation with
    | some ty =>
      rw [processParam_annotated cfg ctx mn st q ty hq ha]
      simp [paramDelta, hq, ha]
    | none =>
      rw [processParam_unannotated cfg ctx mn st q hq ha]
      simp [paramDelta, hq, ha]

theorem processParams_missing (cfg : List String) (ctx : MethodCtx) (mn : String) :
    ∀ (ps : List Param) (st : ExtState),
      (processParams cfg ctx mn st ps).2.2.missing
        = st.missing ++ missingOfParams ctx mn ps := by
  intro ps
  induction ps with
  | nil => intro st; simp [processParams, missingOfParams]
  | cons q rest ih =>
    intro st
    simp only [processParams]
    cases hr : (processParam cfg ctx mn st q).1 with
    | some spt =>
      simp only [hr]
      show (processParams cfg ctx mn (processParam cfg ctx mn st q).2 rest).2.2.missing = _
      rw [ih, processParam_missing]
      simp [missingOfParams, List.append_assoc]
    | none =>
      simp only [hr]
      show (processParams cfg ctx mn (processParam cfg ctx mn st q).2 rest).2.2.missing = _
      rw [ih, processParam_missing]
      simp [missingOfParams, List.append_assoc]

theorem processParams_ptypes (cfg : List String) (ctx : MethodCtx) (mn : String) :
    ∀ (ps : List Param) (st : ExtState),
      (processParams cfg ctx mn st ps).2.1 = ps.filterMap ptypeOf := by
  intro ps
  induction ps with
  | nil => intro st; simp [processParams]
  | cons q rest ih =>
    intro st
    simp only [processParams]
    by_cases hq : q.name = "self"
    · rw [processParam_self cfg ctx mn st q hq]
      simp only [List.filterMap_cons]
      rw [show ptypeOf q = none from by simp [ptypeOf, hq]]
      exact ih st
    · cases ha : q.annotation with
      | some ty =>
        rw [processParam_annotated cfg ctx mn st q ty hq ha]
        simp only [List.filterMap_cons]
        rw [show ptypeOf q = some (q.name, ty) from by simp [ptypeOf, hq, ha]]
        simp [ih]
      | none =>
        rw [processParam_unannotated cfg ctx mn st q hq ha]
        simp only [List.filterMap_cons]
        rw [show ptypeOf q = some (q.name, Ty.anyT) from by simp [ptypeOf, hq, ha]]
        simp [ih]

theorem renderReturn_none_fst (cfg : List String) (ctx : MethodCtx) (mn : String)
    (st : ExtState) : (renderReturn cfg ctx mn st none).1 = "" := by
  by_cases hv : mn ∈ VOID_METHODS <;> simp [renderReturn, hv]

theorem renderReturn_missing (cfg : List String) (ctx : MethodCtx) (mn : String)
    (st : ExtState) (r : Option Ty) :
    (renderReturn cfg ctx mn st r).2.2.missing = st.missing ++ retDelta ctx mn r := by
  cases r with
  | some ty => simp [renderReturn, retDelta]
  | none =>
    by_cases hv : mn ∈ VOID_METHODS <;> simp [renderReturn, retDelta, hv]

theorem createMethodSignature_missing (cfg : List String) (ctx : MethodCtx)
    (st : ExtState) (inp : MethodInput) :
    (createMethodSignature cfg ctx st inp).2.missing
      = st.missing ++ missingOfParams ctx inp.name inp.params
          ++ retDelta ctx inp.name inp.ret := by
  show (renderReturn cfg ctx inp.name (processParams cfg ctx inp.name st inp.params).2.2
      inp.ret).2.2.missing = _
  rw [renderReturn_missing, processParams_missing]

theorem ptypeOf_name (q : Param) (pt : String × Ty) (h : ptypeOf q = some pt) :
    pt.1 = q.name := by
  unfold ptypeOf at h
  by_cases hq : q.name = "self"
  · simp [hq] at h
  · rw [if_neg hq] at h
    cases ha : q.annotation with
    | some ty =>
      rw [ha] at h
      injection h with h2
      rw [← h2]
    | none =>
      rw [ha] at h
      injection h with h2
      rw [← h2]

theorem dictGet_ptypes (ps : List Param) (p : Param)
    (hp : p ∈ ps) (hself : p.name ≠ "self") (hann : p.annotation = none)
    (hnd : (ps.map Param.name).Nodup) :
    dictGet (ps.filterMap ptypeOf) p.name = some Ty.anyT := by
  induction ps with
  | nil => cases hp
  | cons q rest ih =>
    rw [List.map_cons] at hnd
    obtain ⟨hq_notin, hnd2⟩ := List.nodup_cons.mp hnd
    by_cases hqp : q.name = p.name
    · have hpq : p = q := by
        rcases List.mem_cons.mp hp with h | h
        · exact h
        · exact absurd (hqp ▸ List.mem_map.mpr ⟨p, h, rfl⟩) hq_notin
      subst hpq
      rw [List.filterMap_cons]
      rw [show ptypeOf p = some (p.name, Ty.anyT) from by simp [ptypeOf, hself, hann]]
      simp [dictGet]
    · have hprest : p ∈ rest := by
        rcases List.mem_cons.mp hp with h | h
        · exact absurd (congrArg Param.name h).symm hqp
        · exact h
      rw [List.filterMap_cons]
      cases hq0 : ptypeOf q with
      | none => exact ih hprest hnd2
      | some pt =>
        have hn : pt.1 = q.name := ptypeOf_name q pt hq0
        have : dictGet (pt :: rest.filterMap ptypeOf) p.name
            = dictGet (rest.filterMap ptypeOf) p.name := by
          simp [dictGet, hn, hqp]
        rw [this]
        exact ih hprest hnd2

theorem isParamMissingFor_mkParamMissing_self (ctx : MethodCtx) (mn pname : String) :
    isParamMissingFor mn pname (mkParamMissing ctx mn pname) = true := by
  simp [isParamMissingFor, mkParamMissing]

theorem isParamMissingFor_mkParamMissing_ne (ctx : MethodCtx) (mn pname qname : String)
    (h : qname ≠ pname) :
    isParamMissingFor mn pname (mkParamMissing ctx mn qname) = false := by
  simp only [isParamMissingFor, mkParamMissing]
  simp [dotKey_ne mn qname pname h]

theorem filter_paramDelta_ne (ctx : MethodCtx) (mn pname : String) (q : Param)
    (h : q.name ≠ pname) :
    (paramDelta ctx mn q).filter (fun r => isParamMissingFor mn pname r) = [] := by
  unfold paramDelta
  by_cases hs : q.name = "self"
  · simp [hs]
  · rw [if_neg hs]
    cases ha : q.annotation with
    | some ty => simp
    | none => simp [List.filter, isParamMissingFor_mkParamMissing_ne ctx mn pname q.name h]

theorem filter_missingOfParams_not_mem (ctx : MethodCtx) (mn pname : String) :
    ∀ ps : List Param, pname ∉ ps.map Param.name →
      (missingOfParams ctx mn ps).filter (fun r => isParamMissingFor mn pname r) = [] := by
  intro ps
  induction ps with
  | nil => intro _; simp [missingOfParams]
  | cons q rest ih =>
    intro h
    have hq : q.name ≠ pname := fun hh => h (by simp [hh])
    have hrest : pname ∉ rest.map Param.name := fun hh => h (by simp [hh])
    simp only [missingOfParams, List.filter_append]
    rw [ih hrest, filter_paramDelta_ne ctx mn pname q hq]
    rfl

theorem filter_missingOfParams_one (ctx : MethodCtx) (mn : String) (p : Param) :
    ∀ ps : List Param, p ∈ ps → p.name ≠ "self" → p.annotation = none →
      (ps.map Param.name).Nodup →
      ((missingOfParams ctx mn ps).filter (fun r => isParamMissingFor mn p.name r)).length
        = 1 := by
  intro ps
  induction ps with
  | nil => intro h; cases h
  | cons q rest ih =>
    intro hp hself hann hnd
    rw [List.map_cons] at hnd
    obtain ⟨hq_notin, hnd2⟩ := List.nodup_cons.mp hnd
    simp only [missingOfParams, List.filter_append, List.length_append]
    by_cases hqp : q.name = p.name
    · have hpq : p = q := by
        rcases List.mem_cons.mp hp with h | h
        · exact h
        · exact absurd (hqp ▸ List.mem_map.mpr ⟨p, h, rfl⟩) hq_notin
      subst hpq
      have hone : (paramDelta ctx mn p).filter (fun r => isParamMissingFor mn p.name r)
          = [mkParamMissing ctx mn p.name] := by
        unfold paramDelta
        rw [if_neg hself, hann]
        simp [List.filter, isParamMissingFor_mkParamMissing_self ctx mn p.name]
      rw [hone, filter_missingOfParams_not_mem ctx mn p.name rest hq_notin]
      rfl
    · have hprest : p ∈ rest := by
        rcases List.mem_cons.mp hp with h | h
        · exact absurd (congrArg Param.name h).symm hqp
        · exact h
      rw [filter_paramDelta_ne ctx mn p.name q hqp, ih hprest hself hann hnd2]
      rfl

theorem filter_missingOfParams_return (ctx : MethodCtx) (mn mn2 : String) :
    ∀ ps : List Param,
      (missingOfParams ctx mn ps).filter (fun r => isReturnMissingFor mn2 r) = [] := by
  intro ps
  induction ps with
  | nil => simp [missingOfParams]
  | cons q rest ih =>
    simp only [missingOfParams, List.filter_append]
    rw [ih]
    have : (paramDelta ctx mn q).filter (fun r => isReturnMissingFor mn2 r) = [] := by
      unfold paramDelta
      by_cases hs : q.name = "self"
      · simp [hs]
      · rw [if_neg hs]
        cases q.annotation with
        | some ty => simp
        | none => simp [List.filter, isReturnMissingFor, mkParamMissing]
    rw [this]
    rfl

theorem filter_retDelta_param (ctx : MethodCtx) (mn pname : String) (r0 : Option Ty) :
    (retDelta ctx mn r0).filter (fun r => isParamMissingFor mn pname r) = [] := by
  cases r0 with
  | some ty => simp [retDelta]
  | none =>
    by_cases hv : mn ∈ VOID_METHODS
    · simp [retDelta, hv]
    · simp [retDelta, hv, List.filter, isParamMissingFor, mkReturnMissing]

theorem filter_retDelta_return (ctx : MethodCtx) (mn : String) :
    ((retDelta ctx mn none).filter (fun r => isReturnMissingFor mn r)).length
      = if mn ∈ VOID_METHODS then 0 else 1 := by
  by_cases hv : mn ∈ VOID_METHODS
  · simp [retDelta, hv]
  · simp [retDelta, hv, List.filter, isReturnMissingFor, mkReturnMissing]

/-- C4.  A method with an unannotated non-self parameter is still rendered
as a method signature (never dropped); the parameter renders with the
placeholder `Any` (and enters `param_types` as `Any`); and exactly one
`MissingAnnot` of kind `method_parameter`, keyed by method and
parameter name, is appended to the missing-annotation list. -/
theorem method_param_placeholder_and_record (cfg : List String) (ctx : MethodCtx)
    (st : ExtState) (inp : MethodInput) (p : Param)
    (hp : p ∈ inp.params) (hself : p.name ≠ "self") (hann : p.annotation = none)
    (hnd : (inp.params.map Param.name).Nodup) :
    ((createMethodSignature cfg ctx st inp).1.name = inp.name
       ∧ (createMethodSignature cfg ctx st inp).1.signature_type = "method")
    ∧ (∀ st2 : ExtState, (processParam cfg ctx inp.name st2 p).1
         = some (p.name ++ ": Any" ++ formatDefaultOpt p.default, (p.name, Ty.anyT)))
    ∧ dictGet (createMethodSignature cfg ctx st inp).1.param_types p.name = some Ty.anyT
    ∧ ((createMethodSignature cfg ctx st inp).2.missing.filter
          (fun r => isParamMissingFor inp.name p.name r)).length
        = (st.missing.filter (fun r => isParamMissingFor inp.name p.name r)).length + 1 := by
  refine ⟨⟨rfl, rfl⟩, ?_, ?_, ?_⟩
  · intro st2
    rw [processParam_unannotated cfg ctx inp.name st2 p hself hann]
  · have h1 : (createMethodSignature cfg ctx st inp).1.param_types
        = (processParams cfg ctx inp.name st inp.params).2.1 := rfl
    rw [h1, processParams_ptypes]
    exact dictGet_ptypes inp.params p hp hself hann hnd
  · rw [createMethodSignature_missing]
    rw [List.filter_append, List.filter_append, List.length_append, List.length_append]
    rw [filter_retDelta_param ctx inp.name p.name inp.ret]
    rw [filter_missingOfParams_one ctx inp.name p inp.params hp hself hann hnd]
    simp

/-- Witness for C4: `def run(self, n) -> bool` with unannotated `n`. -/
theorem method_param_placeholder_and_record_witness :
    dictGet (createMethodSignature [] (MethodCtx.mk "Worker" "app.mod") {}
        (MethodInput.mk "run" [{ name := "n" }] (some (Ty.cls "builtins" "bool")))).1.param_types
        "n" = some Ty.anyT
    ∧ ((createMethodSignature [] (MethodCtx.mk "Worker" "app.mod") {}
        (MethodInput.mk "run" [{ name := "n" }] (some (Ty.cls "builtins" "bool")))).2.missing.filter
          (fun r => isParamMissingFor "run" "n" r)).length
        = (([] : List MissingAnnot).filter
            (fun r => isParamMissingFor "run" "n" r)).length + 1 := by
  have h := method_param_placeholder_and_record [] (MethodCtx.mk "Worker" "app.mod") {}
    (MethodInput.mk "run" [{ name := "n" }] (some (Ty.cls "builtins" "bool")))
    { name := "n" } (by decide) (by decide) (by decide) (by decide)
  exact ⟨h.2.2.1, h.2.2.2⟩

/-- C5.  A method without a return annotation renders with no return
arrow at all, and one `MissingAnnot` of kind `method_return` is
recorded exactly when the method name is not in the lifecycle set
`VOID_METHODS`; for lifecycle names the omission is silent. -/
theorem method_return_omitted_or_recorded (cfg : List String) (ctx : MethodCtx)
    (st : ExtState) (inp : MethodInput) (h : inp.ret = none) :
    (∀ st2 : ExtState, (renderReturn cfg ctx inp.name st2 none).1 = "")
    ∧ (∃ ps : String, (createMethodSignature cfg ctx st inp).1.raw_signature
        = "def " ++ inp.name ++ "(self" ++ ps ++ "): ...")
    ∧ ((createMethodSignature cfg ctx st inp).2.missing.filter
          (fun r => isReturnMissingFor inp.name r)).length
        = (st.missing.filter (fun r => isReturnMissingFor inp.name r)).length
          + (if inp.name ∈ VOID_METHODS then 0 else 1) := by
  refine ⟨fun st2 => renderReturn_none_fst cfg ctx inp.name st2, ?_, ?_⟩
  · refine ⟨(if pyJoin ", " (processParams cfg ctx inp.name st inp.params).1 ≠ "" then
        ", " ++ pyJoin ", " (processParams cfg ctx inp.name st inp.params).1 else ""), ?_⟩
    have hraw : (createMethodSignature cfg ctx st inp).1.raw_signature
        = "def " ++ inp.name ++ "(self"
          ++ (if pyJoin ", " (processParams cfg ctx inp.name st inp.params).1 ≠ "" then
              ", " ++ pyJoin ", " (processParams cfg ctx inp.name st inp.params).1 else "")
          ++ ")"
          ++ (renderReturn cfg ctx inp.name
              (processParams cfg ctx inp.name st inp.params).2.2 inp.ret).1
          ++ ": ..." := rfl
    rw [hraw, h, renderReturn_none_fst, String.append_empty, String.append_assoc]
    congr 1
  · rw [createMethodSignature_missing, h]
    rw [List.filter_append, List.filter_append, List.length_append, List.length_append]
    rw [filter_missingOfParams_return ctx inp.name inp.name inp.params]
    rw [filter_retDelta_return ctx inp.name]
    simp

/-- Witness for C5: `run` (not a lifecycle name) records one return
annotation gap; `__init__` records none. -/
theorem method_return_omitted_or_recorded_witness :
    (∃ ps : String, (createMethodSignature [] (MethodCtx.mk "Worker" "app.mod") {}
        (MethodInput.mk "run" [{ name := "n" }] none)).1.raw_signature
        = "def " ++ "run" ++ "(self" ++ ps ++ "): ...")
    ∧ ((createMethodSignature [] (MethodCtx.mk "Worker" "app.mod") {}
          (MethodInput.mk "run" [{ name := "n" }] none)).2.missing.filter
          (fun r => isReturnMissingFor "run" r)).length
        = (([] : List MissingAnnot).filter
            (fun r => isReturnMissingFor "run" r)).length + 1
    ∧ ((createMethodSignature [] (MethodCtx.mk "W" "m") {}
          (MethodInput.mk "__init__" [] none)).2.missing.filter
          (fun r => isReturnMissingFor "__init__" r)).length
        = (([] : List MissingAnnot).filter
            (fun r => isReturnMissingFor "__init__" r)).length + 0 := by
  have h1 := method_return_omitted_or_recorded [] (MethodCtx.mk "Worker" "app.mod") {}
    (MethodInput.mk "run" [{ name := "n" }] none) rfl
  have h2 := method_return_omitted_or_recorded [] (MethodCtx.mk "W" "m") {}
    (MethodInput.mk "__init__" [] none) rfl
  refine ⟨h1.2.1, ?_, ?_⟩
  · have := h1.2.2
    rwa [if_neg (by decide : ¬ ("run" ∈ VOID_METHODS))] at this
  · have := h2.2.2
    rwa [if_pos (by decide : ("__init__" ∈ VOID_METHODS))] at this

/-! ### The rendered text of `format_type` is independent of the tracking
state (only the state side accumulates), proved by mutual structural
induction. -/

mutual
theorem formatType_fst_indep (cfg : List String) : ∀ (t : Ty) (st1 st2 : RState),
    (formatType cfg st1 t).1 = (formatType cfg st2 t).1
  | Ty.noneT, st1, st2 => by simp [formatType]
  | Ty.anyT, st1, st2 => by simp [formatType]
  | Ty.strAnn s, st1, st2 => by
      simp only [formatType]
      by_cases h1 : isDottedName s
      · simp [h1]
      · by_cases h2 : isComplexTypeExpression s
        · simp [h1, h2]
        · by_cases h3 : strStarts s quoteStr && strEnds s quoteStr
          · simp [h1, h2, h3]
          · simp [h1, h2, h3]
  | Ty.fwdRef s, st1, st2 => by simp [formatType]
  | Ty.cls m n, st1, st2 => by simp [formatType]
  | Ty.listT args, st1, st2 => by
      cases args with
      | nil => simp [formatType]
      | cons a rest =>
        simp only [formatType]
        rw [formatType_fst_indep cfg a (trackType cfg st1 (Ty.listT (a :: rest)))
          (trackType cfg st2 (Ty.listT (a :: rest)))]
  | Ty.dictT args, st1, st2 => by
      match args with
      | [] => simp [formatType]
      | [k] => simp [formatType]
      | k :: v :: rest =>
        simp only [formatType]
        rw [formatType_fst_indep cfg k (trackType cfg st1 (Ty.dictT (k :: v :: rest)))
          (trackType cfg st2 (Ty.dictT (k :: v :: rest)))]
        rw [formatType_fst_indep cfg v
          (formatType cfg (trackType cfg st1 (Ty.dictT (k :: v :: rest))) k).2
          (formatType cfg (trackType cfg st2 (Ty.dictT (k :: v :: rest))) k).2]
  | Ty.typeT args, st1, st2 => by
      cases args with
      | nil => simp [formatType]
      | cons a rest =>
        simp only [formatType]
        rw [formatType_fst_indep cfg a (trackType cfg st1 (Ty.typeT (a :: rest)))
          (trackType cfg st2 (Ty.typeT (a :: rest)))]
  | Ty.unionT args, st1, st2 => by
      match args with
      | [a, b] =>
        simp only [formatType]
        by_cases hc : Ty.noneT = a ∨ Ty.noneT = b
        · rw [if_pos hc, if_pos hc]
          by_cases hb : b = Ty.noneT
          · simp only [if_pos hb]
            rw [formatType_fst_indep cfg a (trackType cfg st1 (Ty.unionT [a, b]))
              (trackType cfg st2 (Ty.unionT [a, b]))]
          · simp only [if_neg hb]
            rw [formatType_fst_indep cfg b (trackType cfg st1 (Ty.unionT [a, b]))
              (trackType cfg st2 (Ty.unionT [a, b]))]
        · rw [if_neg hc, if_neg hc]
          rw [formatTypeList_fst_indep cfg [a, b] (trackType cfg st1 (Ty.unionT [a, b]))
            (trackType cfg st2 (Ty.unionT [a, b]))]
      | [] => simp [formatType, formatTypeList]
      | [a] =>
        simp only [formatType]
        rw [formatTypeList_fst_indep cfg [a] (trackType cfg st1 (Ty.unionT [a]))
          (trackType cfg st2 (Ty.unionT [a]))]
      | a :: b :: c :: rest =>
        simp only [formatType]
        rw [formatTypeList_fst_indep cfg (a :: b :: c :: rest)
          (trackType cfg st1 (Ty.unionT (a :: b :: c :: rest)))
          (trackType cfg st2 (Ty.unionT (a :: b :: c :: rest)))]
  | Ty.genericT m n args, st1, st2 => by
      cases args with
      | nil => simp [formatType]
      | cons a rest =>
        simp only [formatType]
        rw [formatTypeList_fst_indep cfg (a :: rest)
          (trackType cfg st1 (Ty.genericT m n (a :: rest)))
          (trackType cfg st2 (Ty.genericT m n (a :: rest)))]
termination_by structural t => t

theorem formatTypeList_fst_indep (cfg : List String) : ∀ (l : List Ty) (st1 st2 : RState),
    (formatTypeList cfg st1 l).1 = (formatTypeList cfg st2 l).1
  | [], st1, st2 => by simp [formatTypeList]
  | t :: ts, st1, st2 => by
      simp only [formatTypeList]
      rw [formatType_fst_indep cfg t st1 st2,
        formatTypeList_fst_indep cfg ts (formatType cfg st1 t).2 (formatType cfg st2 t).2]
termination_by structural l => l
end

theorem formatTypeList_fst_map (cfg : List String) :
    ∀ (l : List Ty) (st : RState),
      (formatTypeList cfg st l).1 = l.map (fun t => (formatType cfg st t).1) := by
  intro l
  induction l with
  | nil => intro st; simp [formatTypeList]
  | cons t ts ih =>
    intro st
    simp only [formatTypeList, List.map_cons]
    rw [formatTypeList_fst_indep cfg ts (formatType cfg st t).2 st, ih st]

/-- C6.  A two-member union containing the none-type renders as
`Optional[X]` with `X` the rendering of the non-none member; every other
union renders as `Union[...]` over the arguments in supplied order. -/
theorem union_optional_rendering (cfg : List String) (st : RState) (a : Ty)
    (args : List Ty) :
    ((formatType cfg st (Ty.unionT [a, Ty.noneT])).1
        = "Optional[" ++ (formatType cfg st a).1 ++ "]")
    ∧ (a ≠ Ty.noneT →
        (formatType cfg st (Ty.unionT [Ty.noneT, a])).1
          = "Optional[" ++ (formatType cfg st a).1 ++ "]")
    ∧ (¬ (args.length = 2 ∧ Ty.noneT ∈ args) →
        (formatType cfg st (Ty.unionT args)).1
          = "Union[" ++ pyJoin ", " (args.map (fun b => (formatType cfg st b).1)) ++ "]") := by
  refine ⟨?_, ?_, ?_⟩
  · simp only [formatType, or_true, if_true]
    rw [formatType_fst_indep cfg a (trackType cfg st (Ty.unionT [a, Ty.noneT])) st]
  · intro ha
    simp only [formatType, true_or, if_true, if_neg ha]
    rw [formatType_fst_indep cfg a (trackType cfg st (Ty.unionT [Ty.noneT, a])) st]
  · intro hc
    match args, hc with
    | [], hc => simp [formatType, formatTypeList, pyJoin]
    | [x], hc =>
      simp only [formatType]
      rw [formatTypeList_fst_indep cfg [x] (trackType cfg st (Ty.unionT [x])) st,
        formatTypeList_fst_map]
    | [x, y], hc =>
      have hxy : ¬ (Ty.noneT = x ∨ Ty.noneT = y) := by
        intro h
        exact hc ⟨rfl, by
          rcases h with h | h
          · exact h ▸ List.mem_cons_self x [y]
          · exact h ▸ (by simp)⟩
      simp only [formatType]
      rw [if_neg hxy]
      rw [formatTypeList_fst_indep cfg [x, y] (trackType cfg st (Ty.unionT [x, y])) st,
        formatTypeList_fst_map]
    | x :: y :: z :: rest, hc =>
      simp only [formatType]
      rw [formatTypeList_fst_indep cfg (x :: y :: z :: rest)
        (trackType cfg st (Ty.unionT (x :: y :: z :: rest))) st,
        formatTypeList_fst_map]

/-- Witness for C6: `Union[A, None]` and `Union[None, A]` render as
`Optional[A]`; a three-member union renders in supplied order. -/
theorem union_optional_rendering_witness :
    (formatType [] emptyRState (Ty.unionT [Ty.cls "m" "A", Ty.noneT])).1 = "Optional[A]"
    ∧ (formatType [] emptyRState (Ty.unionT [Ty.noneT, Ty.cls "m" "A"])).1 = "Optional[A]"
    ∧ (formatType [] emptyRState
        (Ty.unionT [Ty.cls "m" "A", Ty.cls "m" "B", Ty.noneT])).1 = "Union[A, B, None]" := by
  have h := union_optional_rendering [] emptyRState (Ty.cls "m" "A")
    [Ty.cls "m" "A", Ty.cls "m" "B", Ty.noneT]
  refine ⟨?_, ?_, ?_⟩
  · rw [h.1]; decide
  · rw [h.2.1 (by decide)]; decide
  · rw [h.2.2 (by decide)]; decide

/-! ### Dotted string annotations (C7)

`format_type`'s dotted branch (type_resolver.py 60-62) returns
`_format_dotted_name` with no state update: contrary to the spec, nothing
is registered in `forward_references` for a plain dotted string. -/

/-- Counterexample for C7 as stated: tracking and formatting the dotted
string annotation `m.C` renders `C` but leaves the forward-reference set
empty; `m.C` is never registered for deferred import. -/
theorem dotted_string_no_forward_ref_counterexample :
    (formatType [] (trackType [] emptyRState (Ty.strAnn "m.C")) (Ty.strAnn "m.C")).1 = "C"
    ∧ "m.C" ∉ (formatType [] (trackType [] emptyRState (Ty.strAnn "m.C"))
        (Ty.strAnn "m.C")).2.forward_references
    ∧ (formatType [] (trackType [] emptyRState (Ty.strAnn "m.C"))
        (Ty.strAnn "m.C")).2.forward_references = [] := by
  refine ⟨by decide, by decide, by decide⟩

/-- C7 (amended).  For a plain dotted string annotation, `format_type`
leaves the resolver state entirely unchanged (in particular it registers
no forward reference), and when the dotted name has exactly two
components it renders the trailing component. -/
theorem dotted_string_rendering (cfg : List String) (st : RState) (s : String)
    (h : isDottedName s = true) :
    (formatType cfg st (Ty.strAnn s)).2 = st
    ∧ (∀ m c : String, pySplit '.' (stripQuotes s) = [m, c] →
        (formatType cfg st (Ty.strAnn s)).1 = c) := by
  constructor
  · simp [formatType, h]
  · intro m c hsplit
    simp only [formatType, h, if_true]
    simp only [formatDottedName, hsplit]

/-- Witness for the amended C7 at the dotted string `m.C`. -/
theorem dotted_string_rendering_witness :
    isDottedName "m.C" = true
    ∧ (formatType [] emptyRState (Ty.strAnn "m.C")).2 = emptyRState
    ∧ (formatType [] emptyRState (Ty.strAnn "m.C")).1 = "C" := by
  have h := dotted_string_rendering [] emptyRState "m.C" (by decide)
  exact ⟨by decide, h.1, h.2 "m" "C" (by decide)⟩

/-! ### Per-unit state reset (C9)

`SignatureExtractor.clear_state` (extractor.py 38-41) clears the
missing-annotation list *and* the resolver; `_generate_single_stub_file`
calls it before every unit (generation.py 223). -/

/-- `SignatureExtractor.clear_state`: both the missing-annotation list
and the resolver state are cleared. -/
def clearState (_st : ExtState) : ExtState :=
  { resolver := emptyRState, missing := [] }

/-- The per-unit loop of `generate_stubs`: reset, then extraction appends
the unit's missing-annotation records (`f u`). -/
def runUnits {α : Type} (f : α → List MissingAnnot) (st : ExtState)
    (units : List α) : ExtState :=
  units.foldl (fun s u =>
    let s2 := clearState s
    { s2 with missing := s2.missing ++ f u }) st

/-- Counterexample for C9 as stated: the reset does not leave earlier
records in place — it empties the missing-annotation list. -/
theorem clear_state_counterexample :
    ¬ ((clearState (ExtState.mk emptyRState
          [MissingAnnot.mk "C" "m" "x" "method_return" ""])).missing
        = [MissingAnnot.mk "C" "m" "x" "method_return" ""]) := by
  decide

/-- C9 (amended).  The per-unit reset clears the resolver state and also
the accumulated missing-annotation records, so after processing a
nonempty run the surviving records — those the end-of-run report covers —
are exactly the final unit's. -/
theorem clear_state_clears_all (st : ExtState) :
    (clearState st).missing = []
    ∧ (clearState st).resolver = emptyRState
    ∧ ∀ (f : String → List MissingAnnot) (units : List String) (h : units ≠ []),
        (runUnits f st units).missing = f (units.getLast h) := by
  refine ⟨rfl, rfl, ?_⟩
  intro f units
  induction units generalizing st with
  | nil => intro h; exact absurd rfl h
  | cons u rest ih =>
    intro h
    cases rest with
    | nil => simp [runUnits, clearState]
    | cons v rest2 =>
      have hne : v :: rest2 ≠ [] := by simp
      have step : runUnits f st (u :: v :: rest2)
          = runUnits f { resolver := emptyRState, missing := f u } (v :: rest2) := rfl
      rw [step, ih _ hne]
      rw [List.getLast_cons hne]

/-- Witness for the amended C9: after two units the surviving records are
the second unit's only. -/
theorem clear_state_clears_all_witness :
    (runUnits (fun u => [MissingAnnot.mk u "m" "x" "method_return" ""])
        (ExtState.mk emptyRState
          [MissingAnnot.mk "old" "m" "y" "method_parameter" ""])
        ["u1", "u2"]).missing
      = [MissingAnnot.mk "u2" "m" "x" "method_return" ""] := by
  have h := (clear_state_clears_all
    (ExtState.mk emptyRState
      [MissingAnnot.mk "old" "m" "y" "method_parameter" ""])).2.2
    (fun u => [MissingAnnot.mk u "m" "x" "method_return" ""])
    ["u1", "u2"] (by decide)
  rw [h]
  decide

/-! ### Validation gates persistence (C10)

`StubValidator.validate_stub_content` and the persistence decision of
`StubGenerator._generate_single_stub_file` (generation.py 291-307).
`ast.parse` is an external oracle, passed in as `parse`; the error
message strings elide the quote characters of the original text. -/

/-- The stub-specific line checks of `validate_stub_content`
(generation.py 33-50); `i` is the 1-based line number and `lines[i]`
(0-based) is the following line. -/
def stubLineErrors (lines : List String) : List String :=
  (List.range lines.length).foldl (fun errs idx =>
    let i := idx + 1
    let line := pyStrip (lines.getD idx "")
    if line = "" || strStarts line "#" then errs
    else
      let errs1 :=
        if strStarts line "def " && !(strEnds line "...") then
          if decide (i < lines.length) && !(strEnds (pyStrip (lines.getD i "")) "...") then
            errs ++ ["Line " ++ toString i ++ ": Method definition missing ... body"]
          else errs
        else errs
      if strStarts line "class " && !(line.data.contains ':') then
        errs1 ++ ["Line " ++ toString i ++ ": Class definition missing colon"]
      else errs1) []

/-- `StubValidator.validate_stub_content`: `(is_valid, errors)`. -/
def validateStubContent (parse : String → Bool) (content : String) : Bool × List String :=
  if parse content then
    let errs := stubLineErrors (pySplit (Char.ofNat 10) content)
    (errs.isEmpty, errs)
  else
    (false, ["Syntax error"])

/-- The persistence decision of `_generate_single_stub_file`
(generation.py 291-307): reject without writing on validation failure,
write exactly the rendered content otherwise. -/
def generateSingleStubPersist (parse : String → Bool) (content : String) :
    Bool × Option String :=
  if (validateStubContent parse content).1 then (true, some content) else (false, none)

/-- The generation loop of `generate_stubs` (generation.py 198-209):
success count, validation-failure count, and the persisted contents. -/
def runGeneration (parse : String → Bool) : List String → Nat × Nat × List String
  | [] => (0, 0, [])
  | c :: rest =>
    let r := generateSingleStubPersist parse c
    let rec2 := runGeneration parse rest
    if r.1 then (rec2.1 + 1, rec2.2.1, c :: rec2.2.2)
    else (rec2.1, rec2.2.1 + 1, rec2.2.2)

/-- C10.  A rendered unit is persisted if and only if its syntax
validation succeeds; failing units are rejected unwritten and counted as
validation failures, and those are the only unpersisted units. -/
theorem validation_gates_persistence (parse : String → Bool) (contents : List String) :
    (runGeneration parse contents).2.2
        = contents.filter (fun c => (validateStubContent parse c).1)
    ∧ (runGeneration parse contents).1
        = (contents.filter (fun c => (validateStubContent parse c).1)).length
    ∧ (runGeneration parse contents).2.1
        = (contents.filter (fun c => !(validateStubContent parse c).1)).length
    ∧ ∀ c : String, ((generateSingleStubPersist parse c).2 = some c
        ↔ (validateStubContent parse c).1 = true) := by
  refine ⟨?_, ?_, ?_, ?_⟩
  · induction contents with
    | nil => rfl
    | cons c rest ih =>
      simp only [runGeneration, generateSingleStubPersist, List.filter_cons]
      by_cases hv : (validateStubContent parse c).1 <;> simp [hv, ih]
  · induction contents with
    | nil => rfl
    | cons c rest ih =>
      simp only [runGeneration, generateSingleStubPersist, List.filter_cons]
      by_cases hv : (validateStubContent parse c).1 <;> simp [hv, ih]
  · induction contents with
    | nil => rfl
    | cons c rest ih =>
      simp only [runGeneration, generateSingleStubPersist, List.filter_cons]
      by_cases hv : (validateStubContent parse c).1 <;> simp [hv, ih]
  · intro c
    unfold generateSingleStubPersist
    by_cases hv : (validateStubContent parse c).1 <;> simp [hv]

/-! ## Import generation (C8)

`ImportGenerator` (import_generation.py).  Import statements are kept
structurally as `(module, name)` pairs for the `from module import name`
sections and bare names for the typing section; `_build_import_statements`
only renders these sets.  The open-world lookup
`_resolve_string_type_module` is an oracle parameter `resolve`. -/

/-- The safe standard-module allow-list (import_generation.py 151). -/
def SAFE_MODULES : List String :=
  ["collections", "collections.abc", "functools", "itertools", "pathlib", "uuid", "logging"]

/-- The four import buckets assembled by `generate_imports`. -/
structure ImportSets where
  standard : List (String × String) := []
  typing : List String := []
  thirdParty : List (String × String) := []
  typeChecking : List (String × String) := []
deriving DecidableEq

/-- Python `s.rsplit(sep, 1)` at the last dot, `none` when no dot. -/
def rsplit1Dot (s : String) : Option (String × String) :=
  match (pySplit '.' s).reverse with
  | last :: p :: rest => some (pyJoin "." (p :: rest).reverse, last)
  | _ => none

/-- `ImportGenerator._categorize_forward_reference`. -/
def categorizeForwardReference (defined cfg : List String) (fr : String)
    (tc : List (String × String)) : List (String × String) :=
  match rsplit1Dot fr with
  | none => tc
  | some (m, c) =>
    if c ∈ defined then tc
    else if isExcludedModule cfg m then tc
    else listInsert tc (m, c)

/-- The module dispatch of `_categorize_type_import` (import_generation.py
129-156) for one object carrying `__module__` and `__name__`. -/
def categorizeClsImport (defined cfg : List String) (m c : String)
    (acc : ImportSets) : ImportSets :=
  if c ∈ defined then acc
  else if isExcludedModule cfg m then acc
  else if m = "builtins" then acc
  else if m = "typing" then { acc with typing := listInsert acc.typing c }
  else if m ∈ SAFE_MODULES then
    { acc with standard := listInsert acc.standard (m, c) }
  else { acc with typeChecking := listInsert acc.typeChecking (m, c) }

mutual
/-- `ImportGenerator._categorize_type_import`.  Generic types recurse into
origin and arguments; only objects with both `__module__` and `__name__`
(concrete classes and named generic origins; the builtin origins of
list/dict/type contribute nothing, `Union` and `ForwardRef` objects carry
no usable `__name__`) reach the module dispatch. -/
def categorizeTypeImport (defined cfg : List String) : Ty → ImportSets → ImportSets
  | Ty.anyT, acc => acc
  | Ty.noneT, acc => acc
  | Ty.strAnn _, acc => acc
  | Ty.fwdRef _, acc => acc
  | Ty.listT args, acc => categorizeTypeImportList defined cfg args acc
  | Ty.dictT args, acc => categorizeTypeImportList defined cfg args acc
  | Ty.typeT args, acc => categorizeTypeImportList defined cfg args acc
  | Ty.unionT args, acc => categorizeTypeImportList defined cfg args acc
  | Ty.genericT m c args, acc =>
    categorizeTypeImportList defined cfg args (categorizeClsImport defined cfg m c acc)
  | Ty.cls m c, acc => categorizeClsImport defined cfg m c acc
termination_by structural t => t

/-- Recursion over the type arguments of a generic. -/
def categorizeTypeImportList (defined cfg : List String) :
    List Ty → ImportSets → ImportSets
  | [], acc => acc
  | t :: ts, acc =>
    categorizeTypeImportList defined cfg ts (categorizeTypeImport defined cfg t acc)
termination_by structural l => l
end

/-- `ImportGenerator._categorize_string_type`. -/
def categorizeStringType (defined cfg : List String) (resolve : String → Option String)
    (s : String) (acc : ImportSets) : ImportSets :=
  if s ∈ ["str", "int", "float", "bool", "list", "dict", "tuple", "set", "None"] then acc
  else if s ∈ defined then acc
  else if s ∈ TYPING_CONSTRUCTS then { acc with typing := listInsert acc.typing s }
  else match resolve s with
    | some m =>
      if isExcludedModule cfg m then acc
      else { acc with typeChecking := listInsert acc.typeChecking (m, s) }
    | none => acc

/-- Scan automaton for the quoted capitalized-identifier pattern (a
quote, an upper-case letter, word characters, a quote). -/
def findQuotedCapsAux : List Char → Option (List Char) → List String
  | [], _ => []
  | c :: rest, none =>
    if c == quoteChar then findQuotedCapsAux rest (some [])
    else findQuotedCapsAux rest none
  | c :: rest, some acc =>
    if c == quoteChar then
      match acc with
      | [] => findQuotedCapsAux rest (some [])
      | _ => String.mk acc.reverse :: findQuotedCapsAux rest none
    else if (acc.isEmpty && c.isUpper) || (!acc.isEmpty && wordChar c) then
      findQuotedCapsAux rest (some (c :: acc))
    else findQuotedCapsAux rest none

/-- All single-quoted capitalized identifiers of a string, in order. -/
def findQuotedCaps (s : String) : List String := findQuotedCapsAux s.data none

/-- `ImportGenerator._extract_imports_from_complex_expression`. -/
def extractImportsFromComplexExpression (defined cfg : List String)
    (resolve : String → Option String) (expr : String) (acc : ImportSets) : ImportSets :=
  let acc1 := (findTypingConstructs expr).foldl
    (fun a t => { a with typing := listInsert a.typing t }) acc
  (findQuotedCaps expr).foldl (fun a c =>
    if c ∈ defined then a
    else match resolve c with
      | some m =>
        if !(isExcludedModule cfg m) then
          { a with typeChecking := listInsert a.typeChecking (m, c) }
        else a
      | none => a) acc1

/-- Every name imported by any section of the assembled header. -/
def allImportNames (acc : ImportSets) : List String :=
  acc.standard.map Prod.snd ++ acc.typing ++ acc.thirdParty.map Prod.snd
    ++ acc.typeChecking.map Prod.snd

theorem mem_listInsert {α : Type} [DecidableEq α] (l : List α) (a x : α) :
    x ∈ listInsert l a ↔ x ∈ l ∨ x = a := by
  unfold listInsert
  by_cases h : a ∈ l
  · simp only [if_pos h]
    constructor
    · exact Or.inl
    · rintro (hx | hx)
      · exact hx
      · exact hx ▸ h
  · simp [if_neg h]

theorem mem_map_snd_listInsert (l : List (String × String)) (p : String × String)
    (n : String) :
    n ∈ (listInsert l p).map Prod.snd ↔ n ∈ l.map Prod.snd ∨ n = p.2 := by
  unfold listInsert
  by_cases h : p ∈ l
  · simp only [if_pos h]
    constructor
    · exact Or.inl
    · rintro (hx | hx)
      · exact hx
      · exact hx ▸ List.mem_map.mpr ⟨p, h, rfl⟩
  · simp [if_neg h]

theorem mem_allImportNames_typing (acc : ImportSets) (x n : String) :
    n ∈ allImportNames { acc with typing := listInsert acc.typing x }
      ↔ n ∈ allImportNames acc ∨ n = x := by
  simp only [allImportNames, List.mem_append, mem_listInsert]
  tauto

theorem mem_allImportNames_standard (acc : ImportSets) (p : String × String) (n : String) :
    n ∈ allImportNames { acc with standard := listInsert acc.standard p }
      ↔ n ∈ allImportNames acc ∨ n = p.2 := by
  simp only [allImportNames, List.mem_append, mem_map_snd_listInsert]
  tauto

theorem mem_allImportNames_typeChecking (acc : ImportSets) (p : String × String) (n : String) :
    n ∈ allImportNames { acc with typeChecking := listInsert acc.typeChecking p }
      ↔ n ∈ allImportNames acc ∨ n = p.2 := by
  simp only [allImportNames, List.mem_append, mem_map_snd_listInsert]
  tauto

theorem categorizeClsImport_preserves (defined cfg : List String) (m c n : String)
    (hn : n ∈ defined) (acc : ImportSets) (h : n ∉ allImportNames acc) :
    n ∉ allImportNames (categorizeClsImport defined cfg m c acc) := by
  unfold categorizeClsImport
  split_ifs with h1 h2 h3 h4 h5
  · exact h
  · exact h
  · exact h
  · have hnc : n ≠ c := fun he => h1 (he ▸ hn)
    rw [mem_allImportNames_typing]
    rintro (hx | hx)
    · exact h hx
    · exact hnc hx
  · have hnc : n ≠ c := fun he => h1 (he ▸ hn)
    rw [mem_allImportNames_standard]
    rintro (hx | hx)
    · exact h hx
    · exact hnc hx
  · have hnc : n ≠ c := fun he => h1 (he ▸ hn)
    rw [mem_allImportNames_typeChecking]
    rintro (hx | hx)
    · exact h hx
    · exact hnc hx

mutual
theorem categorizeTypeImport_preserves (defined cfg : List String) (n : String)
    (hn : n ∈ defined) : ∀ (t : Ty) (acc : ImportSets),
    n ∉ allImportNames acc → n ∉ allImportNames (categorizeTypeImport defined cfg t acc)
  | Ty.anyT, _, h => h
  | Ty.noneT, _, h => h
  | Ty.strAnn _, _, h => h
  | Ty.fwdRef _, _, h => h
  | Ty.cls m c, acc, h => categorizeClsImport_preserves defined cfg m c n hn acc h
  | Ty.listT args, acc, h =>
      categorizeTypeImportList_preserves defined cfg n hn args acc h
  | Ty.dictT args, acc, h =>
      categorizeTypeImportList_preserves defined cfg n hn args acc h
  | Ty.typeT args, acc, h =>
      categorizeTypeImportList_preserves defined cfg n hn args acc h
  | Ty.unionT args, acc, h =>
      categorizeTypeImportList_preserves defined cfg n hn args acc h
  | Ty.genericT m c args, acc, h =>
      categorizeTypeImportList_preserves defined cfg n hn args _
        (categorizeClsImport_preserves defined cfg m c n hn acc h)
termination_by structural t => t

theorem categorizeTypeImportList_preserves (defined cfg : List String) (n : String)
    (hn : n ∈ defined) : ∀ (l : List Ty) (acc : ImportSets),
    n ∉ allImportNames acc → n ∉ allImportNames (categorizeTypeImportList defined cfg l acc)
  | [], _, h => h
  | t :: ts, acc, h =>
      categorizeTypeImportList_preserves defined cfg n hn ts _
        (categorizeTypeImport_preserves defined cfg n hn t acc h)
termination_by structural l => l
end

theorem categorizeForwardReference_preserves (defined cfg : List String) (n : String)
    (hn : n ∈ defined) (fr : String) (tc : List (String × String))
    (h : n ∉ tc.map Prod.snd) :
    n ∉ (categorizeForwardReference defined cfg fr tc).map Prod.snd := by
  unfold categorizeForwardReference
  cases hr : rsplit1Dot fr with
  | none => exact h
  | some mc =>
    obtain ⟨m, c⟩ := mc
    show n ∉ (if c ∈ defined then tc else if isExcludedModule cfg m then tc
        else listInsert tc (m, c)).map Prod.snd
    split_ifs with h1 h2
    · exact h
    · exact h
    · have hnc : n ≠ c := fun he => h1 (he ▸ hn)
      rw [mem_map_snd_listInsert]
      rintro (hx | hx)
      · exact h hx
      · exact hnc hx

theorem categorizeStringType_preserves (defined cfg : List String)
    (resolve : String → Option String) (n : String) (hn : n ∈ defined)
    (s : String) (acc : ImportSets) (h : n ∉ allImportNames acc) :
    n ∉ allImportNames (categorizeStringType defined cfg resolve s acc) := by
  unfold categorizeStringType
  by_cases h1 : s ∈ ["str", "int", "float", "bool", "list", "dict", "tuple", "set", "None"]
  · simpa [h1] using h
  · rw [if_neg h1]
    by_cases h2 : s ∈ defined
    · simpa [h2] using h
    · rw [if_neg h2]
      have hns : n ≠ s := fun he => h2 (he ▸ hn)
      by_cases h3 : s ∈ TYPING_CONSTRUCTS
      · rw [if_pos h3, mem_allImportNames_typing]
        rintro (hx | hx)
        · exact h hx
        · exact hns hx
      · rw [if_neg h3]
        cases hr : resolve s with
        | none => exact h
        | some m =>
          show n ∉ allImportNames (if isExcludedModule cfg m then acc
              else { acc with typeChecking := listInsert acc.typeChecking (m, s) })
          split_ifs with h4
          · exact h
          · rw [mem_allImportNames_typeChecking]
            rintro (hx | hx)
            · exact h hx
            · exact hns hx

theorem foldTyping_typeChecking (ts : List String) :
    ∀ acc : ImportSets,
      ((ts.foldl (fun a t => { a with typing := listInsert a.typing t }) acc).typeChecking)
        = acc.typeChecking := by
  induction ts with
  | nil => intro acc; rfl
  | cons t rest ih => intro acc; exact ih _

theorem foldQuotedCaps_preserves (defined cfg : List String)
    (resolve : String → Option String) (n : String) (hn : n ∈ defined)
    (cs : List String) :
    ∀ acc : ImportSets, n ∉ acc.typeChecking.map Prod.snd →
      n ∉ ((cs.foldl (fun a c =>
          if c ∈ defined then a
          else match resolve c with
            | some m =>
              if !(isExcludedModule cfg m) then
                { a with typeChecking := listInsert a.typeChecking (m, c) }
              else a
            | none => a) acc).typeChecking.map Prod.snd) := by
  induction cs with
  | nil => intro acc h; exact h
  | cons c rest ih =>
    intro acc h
    apply ih
    show n ∉ (if c ∈ defined then acc
        else match resolve c with
          | some m =>
            if !(isExcludedModule cfg m) then
              { acc with typeChecking := listInsert acc.typeChecking (m, c) }
            else acc
          | none => acc).typeChecking.map Prod.snd
    by_cases h1 : c ∈ defined
    · simpa [h1] using h
    · rw [if_neg h1]
      have hnc : n ≠ c := fun he => h1 (he ▸ hn)
      cases hr : resolve c with
      | none => exact h
      | some m =>
        show n ∉ (if !(isExcludedModule cfg m) then
            { acc with typeChecking := listInsert acc.typeChecking (m, c) }
          else acc).typeChecking.map Prod.snd
        split_ifs with h2
        · rw [show ({ acc with typeChecking := listInsert acc.typeChecking (m, c) }
              : ImportSets).typeChecking = listInsert acc.typeChecking (m, c) from rfl]
          rw [mem_map_snd_listInsert]
          rintro (hx | hx)
          · exact h hx
          · exact hnc hx
        · exact h

theorem extractComplex_preserves (defined cfg : List String)
    (resolve : String → Option String) (n : String) (hn : n ∈ defined)
    (e : String) (acc : ImportSets) (h : n ∉ acc.typeChecking.map Prod.snd) :
    n ∉ (extractImportsFromComplexExpression defined cfg resolve e acc).typeChecking.map
      Prod.snd := by
  unfold extractImportsFromComplexExpression
  apply foldQuotedCaps_preserves defined cfg resolve n hn
  rw [foldTyping_typeChecking]
  exact h

theorem findTypingConstructs_mem (s : String) (w : String)
    (h : w ∈ findTypingConstructs s) : w ∈ TYPING_CONSTRUCTS := by
  unfold findTypingConstructs at h
  exact of_decide_eq_true (List.mem_filter.mp h).2

theorem foldTyping_preserves_all (n : String) (hn : n ∉ TYPING_CONSTRUCTS) :
    ∀ ts : List String, (∀ t ∈ ts, t ∈ TYPING_CONSTRUCTS) →
    ∀ acc : ImportSets, n ∉ allImportNames acc →
      n ∉ allImportNames
        (ts.foldl (fun a t => { a with typing := listInsert a.typing t }) acc) := by
  intro ts
  induction ts with
  | nil => intro _ acc h; exact h
  | cons t rest ih =>
    intro hts acc h
    apply ih (fun x hx => hts x (List.mem_cons_of_mem t hx))
    show n ∉ allImportNames { acc with typing := listInsert acc.typing t }
    rw [mem_allImportNames_typing]
    rintro (hx | hx)
    · exact h hx
    · exact hn (hx ▸ hts t (List.mem_cons_self t rest))

theorem foldQuotedCaps_preserves_all (defined cfg : List String)
    (resolve : String → Option String) (n : String) (hn : n ∈ defined)
    (cs : List String) :
    ∀ acc : ImportSets, n ∉ allImportNames acc →
      n ∉ allImportNames (cs.foldl (fun a c =>
          if c ∈ defined then a
          else match resolve c with
            | some m =>
              if !(isExcludedModule cfg m) then
                { a with typeChecking := listInsert a.typeChecking (m, c) }
              else a
            | none => a) acc) := by
  induction cs with
  | nil => intro acc h; exact h
  | cons c rest ih =>
    intro acc h
    apply ih
    show n ∉ allImportNames (if c ∈ defined then acc
        else match resolve c with
          | some m =>
            if !(isExcludedModule cfg m) then
              { acc with typeChecking := listInsert acc.typeChecking (m, c) }
            else acc
          | none => acc)
    by_cases h1 : c ∈ defined
    · simpa [h1] using h
    · rw [if_neg h1]
      have hnc : n ≠ c := fun he => h1 (he ▸ hn)
      cases hr : resolve c with
      | none => exact h
      | some m =>
        show n ∉ allImportNames (if !(isExcludedModule cfg m) then
            { acc with typeChecking := listInsert acc.typeChecking (m, c) }
          else acc)
        split_ifs with h2
        · rw [mem_allImportNames_typeChecking]
          rintro (hx | hx)
          · exact h hx
          · exact hnc hx
        · exact h

theorem extractComplex_preserves_all (defined cfg : List String)
    (resolve : String → Option String) (n : String) (hn : n ∈ defined)
    (hntc : n ∉ TYPING_CONSTRUCTS) (e : String) (acc : ImportSets)
    (h : n ∉ allImportNames acc) :
    n ∉ allImportNames (extractImportsFromComplexExpression defined cfg resolve e acc) := by
  unfold extractImportsFromComplexExpression
  apply foldQuotedCaps_preserves_all defined cfg resolve n hn
  exact foldTyping_preserves_all n hntc (findTypingConstructs e)
    (fun t ht => findTypingConstructs_mem e t ht) acc h

/-- Counterexample for C8 as stated: the typing-construct scan of
`_extract_imports_from_complex_expression` (import_generation.py 86-88)
has no defined-class guard, so a unit-defined class named like a typing
construct, quoted inside a tracked complex type expression, is added to
the typing import bucket of the unit's own header. -/
theorem defined_typing_name_imported_counterexample :
    "Counter" ∈ ["Counter"]
    ∧ "Counter" ∉ allImportNames (ImportSets.mk [] [] [] [])
    ∧ "Counter" ∈ allImportNames (extractImportsFromComplexExpression ["Counter"] []
        (fun _ => none) ("Optional[" ++ quoteStr ++ "Counter" ++ quoteStr ++ "]")
        (ImportSets.mk [] [] [] [])) := by
  refine ⟨by decide, by decide, by decide⟩

/-- C8 (amended).  A class name defined within the current output unit is
never added to any import bucket when the resolver tracked it as a used
type object, a `module.Name` forward reference, or a bare string type
reference; from a tracked complex type expression nothing reaches the
deferred (TYPE_CHECKING) bucket for a defined name, and a defined name
that is not a typing-construct name stays out of every bucket.  The
single leak, shown by the counterexample, is the unguarded
typing-construct scan of complex expressions. -/
theorem defined_class_never_imported (defined cfg : List String)
    (resolve : String → Option String) (n : String) (hn : n ∈ defined) :
    (∀ (t : Ty) (acc : ImportSets), n ∉ allImportNames acc →
        n ∉ allImportNames (categorizeTypeImport defined cfg t acc))
    ∧ (∀ (fr : String) (tc : List (String × String)), n ∉ tc.map Prod.snd →
        n ∉ (categorizeForwardReference defined cfg fr tc).map Prod.snd)
    ∧ (∀ (s : String) (acc : ImportSets), n ∉ allImportNames acc →
        n ∉ allImportNames (categorizeStringType defined cfg resolve s acc))
    ∧ (∀ (e : String) (acc : ImportSets), n ∉ acc.typeChecking.map Prod.snd →
        n ∉ (extractImportsFromComplexExpression defined cfg resolve e
            acc).typeChecking.map Prod.snd)
    ∧ (∀ (e : String) (acc : ImportSets), n ∉ TYPING_CONSTRUCTS →
        n ∉ allImportNames acc →
        n ∉ allImportNames (extractImportsFromComplexExpression defined cfg resolve e acc)) :=
  ⟨fun t acc h => categorizeTypeImport_preserves defined cfg n hn t acc h,
   fun fr tc h => categorizeForwardReference_preserves defined cfg n hn fr tc h,
   fun s acc h => categorizeStringType_preserves defined cfg resolve n hn s acc h,
   fun e acc h => extractComplex_preserves defined cfg resolve n hn e acc h,
   fun e acc hntc h => extractComplex_preserves_all defined cfg resolve n hn hntc e acc h⟩

/-- Witness for the amended C8 with unit-defined class `Foo` (not a
typing-construct name), referenced all four ways; the complex expression
contains a quoted `Foo` and `Foo` enters no bucket at all. -/
theorem defined_class_never_imported_witness :
    "Foo" ∉ allImportNames (categorizeTypeImport ["Foo"] []
        (Ty.cls "app.mod" "Foo") (ImportSets.mk [] [] [] []))
    ∧ "Foo" ∉ (categorizeForwardReference ["Foo"] [] "app.mod.Foo" []).map Prod.snd
    ∧ "Foo" ∉ allImportNames (categorizeStringType ["Foo"] []
        (fun _ => some "app.mod") "Foo" (ImportSets.mk [] [] [] []))
    ∧ "Foo" ∉ ((extractImportsFromComplexExpression ["Foo"] []
        (fun _ => some "app.mod") ("List[" ++ quoteStr ++ "Foo" ++ quoteStr ++ "]")
        (ImportSets.mk [] [] [] [])).typeChecking.map Prod.snd)
    ∧ "Foo" ∉ allImportNames (extractImportsFromComplexExpression ["Foo"] []
        (fun _ => some "app.mod") ("List[" ++ quoteStr ++ "Foo" ++ quoteStr ++ "]")
        (ImportSets.mk [] [] [] [])) := by
  have h := defined_class_never_imported ["Foo"] [] (fun _ => some "app.mod") "Foo"
    (by decide)
  exact ⟨h.1 _ _ (by decide), h.2.1 _ _ (by decide), h.2.2.1 _ _ (by decide),
    h.2.2.2.1 _ _ (by decide), h.2.2.2.2 _ _ (by decide) (by decide)⟩
